import Mathlib

/-!
Verification development for a design-tool layer-population engine
(`src/code.ts`): a token normalizer, a keyword catalog ordered by
specificity, a filename-to-target-layer resolver, a title-to-room-token
deriver, and a block auto-seeder over a scene tree.

Modelling conventions:
* JS strings are modelled as Lean `String`/`List Char`; the engine's
  regular expressions are small and are translated into explicit
  character-list recursions that implement the exact leftmost-match and
  backtracking behaviour of the source patterns.
* `String.prototype.toLowerCase` is modelled by ASCII `Char.toLower`
  (the source only ever compares against ASCII keyword data).
* `Array.prototype.sort` (stable since ES2019) is modelled by a stable
  insertion sort `sortS` with the boolean counterpart of the comparator.
* The Figma scene graph is modelled by the mutual inductives
  `FNode`/`FForest`; floats used for positions are modelled as `Int`
  and the RGB components of the placeholder fill as `Rat`.
-/

/-- Characters in the class `[a-z0-9]` used by the normalizer's regexes. -/
def isLowerAlnum (c : Char) : Bool :=
  (decide ('a' ≤ c) && decide (c ≤ 'z')) || (decide ('0' ≤ c) && decide (c ≤ '9'))

/-- Whitespace removed by `String.prototype.trim` (ASCII fragment). -/
def isJsWs (c : Char) : Bool :=
  c == ' ' || c == '\t' || c == '\n' || c == '\r' || c == '\x0b' || c == '\x0c'

/-- Characters in the class `[a-zA-Z0-9]` (fallback token filter). -/
def isAsciiAlnum (c : Char) : Bool :=
  (decide ('a' ≤ c) && decide (c ≤ 'z')) || (decide ('A' ≤ c) && decide (c ≤ 'Z')) ||
    (decide ('0' ≤ c) && decide (c ≤ '9'))

/-- Drop a trailing run of characters satisfying `p`. -/
def dropTrailing (p : Char → Bool) (l : List Char) : List Char :=
  (l.reverse.dropWhile p).reverse

/-- Trim characters satisfying `p` from both ends (e.g. `^_+|_+$` or `trim`). -/
def trimBy (p : Char → Bool) (l : List Char) : List Char :=
  dropTrailing p (l.dropWhile p)

/-- Model of `String.prototype.trim`. -/
def jsTrim (l : List Char) : List Char :=
  trimBy isJsWs l

/-- Model of `.replace(/\.[^\/.]+$/, '')`: the regex matches exactly when the
last `.` is followed by a nonempty run of characters none of which is `.` or
`/`; the match (the dot and everything after it) is removed. -/
def stripExtCore (l : List Char) : List Char :=
  let rev := l.reverse
  let ext := rev.takeWhile (fun c => !(c == '.' || c == '/'))
  let rest := rev.dropWhile (fun c => !(c == '.' || c == '/'))
  match rest with
  | '.' :: pre => if ext.isEmpty then l else pre.reverse
  | _ => l

/-- Model of `.replace(/[^a-z0-9]+/g, '_')`: each maximal run of characters
outside `[a-z0-9]` becomes a single `_`. The flag records whether we are
currently inside such a run. -/
def squashAux (inRun : Bool) : List Char → List Char
  | [] => []
  | c :: cs =>
    if isLowerAlnum c then c :: squashAux false cs
    else if inRun then squashAux true cs
    else '_' :: squashAux true cs

/-- Model of `.replace(/_+/g, '_')`: collapse runs of underscores. -/
def collapseAux (prevUS : Bool) : List Char → List Char
  | [] => []
  | c :: cs =>
    if c == '_' then
      (if prevUS then collapseAux true cs else '_' :: collapseAux true cs)
    else c :: collapseAux false cs

/-- Core of `normalizeToken` on character lists: lowercase, strip a trailing
extension, squash non-alphanumeric runs to `_`, collapse `_` runs, trim `_`
from both ends (the source's five chained `replace` steps, in order). -/
def normalizeCore (l : List Char) : List Char :=
  trimBy (fun c => c == '_')
    (collapseAux false (squashAux false (stripExtCore (l.map Char.toLower))))

/-- `normalizeToken` from `src/code.ts`. -/
def normalizeToken (s : String) : String :=
  ⟨normalizeCore s.data⟩

/-- `stripExtension` from `src/code.ts`. -/
def stripExtension (s : String) : String :=
  ⟨stripExtCore s.data⟩

/-- The raw keyword vocabulary `ROOM_KEYWORDS`, in declaration order. -/
def ROOM_KEYWORDS : List String :=
  ["Owners_Bath", "Owners_WIC", "Owners", "Kitchen", "Kitchenette", "Dining",
   "Great", "Living", "Family", "Bed2", "Bed3", "Bed4", "Bed5", "Bedroom",
   "Bath2", "Bath3", "Bath4", "Bath", "Powder", "Laundry", "Garage", "Entry",
   "Foyer", "Office", "Study", "WIC", "Suite", "Den", "Loft", "Bonus",
   "Media", "Game", "Gym", "Flex", "CoveredPatio", "Deck", "Patio", "Nook"]

/-- `RoomKeywordInfo` from `src/code.ts`. -/
structure RoomKeywordInfo where
  raw : String
  norm : String
deriving DecidableEq, Repr

/-- Stable insertion of `a` into `l`: `a` goes in front of the first element
`b` with `le a b`. -/
def insertS {α : Type} (le : α → α → Bool) (a : α) : List α → List α
  | [] => [a]
  | b :: l => if le a b then a :: b :: l else b :: insertS le a l

/-- Stable insertion sort, modelling `Array.prototype.sort` (stable per
ES2019) with a consistent comparator: `le a b` means the comparator returns
a non-positive value on `(a, b)`. -/
def sortS {α : Type} (le : α → α → Bool) : List α → List α
  | [] => []
  | a :: l => insertS le a (sortS le l)

/-- Boolean counterpart of the comparator `(a, b) => b.norm.length - a.norm.length`. -/
def catLe (a b : RoomKeywordInfo) : Bool :=
  b.norm.length ≤ a.norm.length

/-- `ROOM_KEYWORD_INFO` from `src/code.ts`: normalize each raw keyword and
sort by descending normalized length (stable). -/
def ROOM_KEYWORD_INFO : List RoomKeywordInfo :=
  sortS catLe (ROOM_KEYWORDS.map (fun raw => { raw := raw, norm := normalizeToken raw }))

/-- Does `kw` occur at position `j` of `s` (plain substring test at an offset)? -/
def subAt (s : List Char) (j : Nat) (kw : List Char) : Bool :=
  kw.isPrefixOf (s.drop j)

/-- The `($|_)` group of the boundary regex, starting at offset `j`: `$` is
tried first, then a literal `_`; returns how many characters it consumes. -/
def tailLen (s : List Char) (j : Nat) : Option Nat :=
  if s.length = j then some 0
  else if s.get? j = some '_' then some 1
  else none

/-- One alternative of `(^|_)kw($|_)` at start position `i`, with `pre`
characters of leading boundary already consumed; returns the total length
of the match. -/
def branchEnd (s kw : List Char) (i pre : Nat) : Option Nat :=
  if subAt s (i + pre) kw then
    (tailLen s (i + pre + kw.length)).map (fun t => pre + kw.length + t)
  else none

/-- Attempt of the regex `(^|_)kw($|_)` at start position `i`: at position 0
the `^` alternative is tried first and the engine backtracks into the `_`
alternative on failure; elsewhere only the `_` alternative can apply. -/
def matchLenAt (s kw : List Char) (i : Nat) : Option Nat :=
  if i = 0 then
    match branchEnd s kw 0 0 with
    | some len => some len
    | none =>
      if s.get? 0 = some '_' then branchEnd s kw 0 1 else none
  else
    if s.get? i = some '_' then branchEnd s kw i 1 else none

/-- Leftmost match of `(^|_)kw($|_)` in `s`: the smallest start position at
which the pattern matches, together with the match length (this is what
`normalized.match(keywordPattern)` yields as `index` and `[0].length`). -/
def firstMatch (s kw : List Char) : Option (Nat × Nat) :=
  (List.range (s.length + 1)).findSome?
    (fun i => (matchLenAt s kw i).map (fun len => (i, len)))

/-- The part of `/^_?(\d+)(?=_?of\d+)/` after the optional `_`: a maximal
nonempty digit run, then a lookahead for an optional `_`, the literal `of`
and at least one digit; returns the digit group. -/
def ofMatchCore (l1 : List Char) : Option (List Char) :=
  let ds := l1.takeWhile Char.isDigit
  let rest := l1.dropWhile Char.isDigit
  if ds.isEmpty then none
  else
    let rest1 := if rest.head? = some '_' then rest.drop 1 else rest
    if ['o', 'f'].isPrefixOf rest1 then
      if (rest1.drop 2).takeWhile Char.isDigit |>.isEmpty then none else some ds
    else none

/-- Model of `afterKeyword.match(/^_?(\d+)(?=_?of\d+)/)`, returning the first
captured digit group. A leading `_` is consumed when present (if it is
present but no digits follow, backtracking into the empty alternative of
`_?` still fails at `\d+`, so dropping the `_` is exact). -/
def ofMatch (l : List Char) : Option (List Char) :=
  ofMatchCore (if l.head? = some '_' then l.drop 1 else l)

/-- The part of `/^_?(\d+)(?:_|$)/` after the optional `_`: a maximal
nonempty digit run followed by `_` or the end of the string. -/
def underscoreMatchCore (l1 : List Char) : Option (List Char) :=
  let ds := l1.takeWhile Char.isDigit
  let rest := l1.dropWhile Char.isDigit
  if ds.isEmpty then none
  else if rest.isEmpty || rest.head? = some '_' then some ds
  else none

/-- Model of `afterKeyword.match(/^_?(\d+)(?:_|$)/)`, returning the captured
digit group. -/
def underscoreMatch (l : List Char) : Option (List Char) :=
  underscoreMatchCore (if l.head? = some '_' then l.drop 1 else l)

/-- Index extraction from the text after the matched keyword: the `N of M`
pattern is tried first, then the plain underscore-delimited pattern, and the
index defaults to `1` (lines 105-127 of `src/code.ts`). -/
def extractIndex (afterKeyword : List Char) : List Char :=
  match ofMatch afterKeyword with
  | some ds => ds
  | none =>
    match underscoreMatch afterKeyword with
    | some ds => ds
    | none => ['1']

/-- The index chosen for a matched keyword: re-run the boundary match to
find `keywordEndIndex`, take the text after it and extract the index; the
unreachable no-match arm keeps the source's `index = null` default of `'1'`
(lines 105-127 of `src/code.ts`). -/
def resolveIdx (normalized : List Char) (info : RoomKeywordInfo) : List Char :=
  match firstMatch normalized info.norm.data with
  | some pl => extractIndex (normalized.drop (pl.1 + pl.2))
  | none => ['1']

/-- `parseFilenameToTargetLayer` from `src/code.ts`. -/
def parseFilenameToTargetLayer (name : String) : Option String :=
  let base := stripExtension name
  let normalized := (normalizeToken base).data
  match ROOM_KEYWORD_INFO.find? (fun info => (firstMatch normalized info.norm.data).isSome) with
  | none => none
  | some info => some (info.raw ++ "_" ++ ⟨resolveIdx normalized info⟩)

/-- Case-insensitive ASCII prefix test: on success returns the remainder of
the input after the pattern (JS `/i` flag semantics on ASCII letters). -/
def ciPrefix : List Char → List Char → Option (List Char)
  | [], s => some s
  | _ :: _, [] => none
  | p :: ps, c :: cs => if p.toLower == c.toLower then ciPrefix ps cs else none

/-- One attempt of `/bed(room)?\s*(\d+)/i` (or the `bath` variant) anchored at
the head of `s`: the stem, a greedy optional `roomWord`, greedy whitespace,
then at least one digit; returns the captured digit group. The engine
backtracks from the `(room)?` alternative when no digits follow. -/
def bedBathAt (stem roomWord s : List Char) : Option (List Char) :=
  match ciPrefix stem s with
  | none => none
  | some rest =>
    let tryDigits : List Char → Option (List Char) := fun r =>
      let r1 := r.dropWhile isJsWs
      let ds := r1.takeWhile Char.isDigit
      if ds.isEmpty then none else some ds
    match ciPrefix roomWord rest with
    | some rest2 =>
      match tryDigits rest2 with
      | some ds => some ds
      | none => tryDigits rest
    | none => tryDigits rest

/-- Leftmost unanchored search for `/stem(roomWord)?\s*(\d+)/i`. -/
def scanFor (stem roomWord : List Char) : List Char → Option (List Char)
  | [] => none
  | c :: rest =>
    match bedBathAt stem roomWord (c :: rest) with
    | some ds => some ds
    | none => scanFor stem roomWord rest

/-- Case-insensitive substring test, modelling `/game/i.test(s)`. -/
def containsCI (pat : List Char) : List Char → Bool
  | [] => (ciPrefix pat []).isSome
  | c :: rest => (ciPrefix pat (c :: rest)).isSome || containsCI pat rest

/-- Case-sensitive substring test, modelling `String.prototype.includes`. -/
def containsSub (pat : List Char) : List Char → Bool
  | [] => pat.isEmpty
  | c :: rest => pat.isPrefixOf (c :: rest) || containsSub pat rest

/-- `isOwnersSuiteTitle` from `src/code.ts`: the lowercased title contains
both `owner` and `suite` as substrings. -/
def isOwnersSuiteTitle (title : String) : Bool :=
  let lower := title.data.map Char.toLower
  containsSub ['o','w','n','e','r'] lower && containsSub ['s','u','i','t','e'] lower

/-- The body of `deriveRoomTokenFromText` applied to the already-computed
first line: `bed(room)? N`, then `bath(room)? N`, then `game`, then the
catalog boundary match on the normalized line, then the strip-everything
fallback (lines 221-249 of `src/code.ts`). -/
def deriveLineToken (firstLine : List Char) : Option String :=
  match scanFor ['b','e','d'] ['r','o','o','m'] firstLine with
  | some ds => some ("Bed" ++ ⟨ds⟩)
  | none =>
    match scanFor ['b','a','t','h'] ['r','o','o','m'] firstLine with
    | some ds => some ("Bath" ++ ⟨ds⟩)
    | none =>
      if containsCI ['g','a','m','e'] firstLine then some "Game"
      else
        let normalized := (normalizeToken ⟨firstLine⟩).data
        match ROOM_KEYWORD_INFO.find? (fun info => (firstMatch normalized info.norm.data).isSome) with
        | some info => some info.raw
        | none =>
          let fallback := firstLine.filter isAsciiAlnum
          if fallback.isEmpty then none else some ⟨fallback⟩

/-- `deriveRoomTokenFromText` from `src/code.ts`: trim the input, fail on
empty, then work on the trimmed first line. -/
def deriveRoomTokenFromText (raw : String) : Option String :=
  let trimmed := jsTrim raw.data
  if trimmed.isEmpty then none
  else deriveLineToken (jsTrim (trimmed.takeWhile (fun c => c != '\n')))

/-- Node kinds of the scene graph that the engine distinguishes. -/
inductive NType where
  | rectangle | ellipse | polygon | star | vector | booleanOp | line
  | text | frame | group | component | instanceNode | slice
deriving DecidableEq, Repr

/-- A paint of a node's `fills` list (solid placeholder or image fill). -/
inductive Paint where
  | solid (r g b : Rat)
  | image (hash : Nat)
deriving DecidableEq, Repr

mutual
/-- A scene node: display name, kind, position, fills, text characters (used
only by text nodes) and children (used only by container kinds). -/
inductive FNode where
  | mk (name : String) (ntype : NType) (x y : Int) (fills : List Paint)
      (chars : String) (children : FForest)
/-- A list of sibling scene nodes (kept as a separate inductive so that all
tree recursions are structural). -/
inductive FForest where
  | nil
  | cons (n : FNode) (rest : FForest)
end

def FNode.name : FNode → String
  | .mk nm _ _ _ _ _ _ => nm

def FNode.ntype : FNode → NType
  | .mk _ t _ _ _ _ _ => t

def FNode.x : FNode → Int
  | .mk _ _ x _ _ _ _ => x

def FNode.y : FNode → Int
  | .mk _ _ _ y _ _ _ => y

def FNode.fills : FNode → List Paint
  | .mk _ _ _ _ f _ _ => f

def FNode.chars : FNode → String
  | .mk _ _ _ _ _ c _ => c

def FNode.children : FNode → FForest
  | .mk _ _ _ _ _ _ ch => ch

/-- Replace a node's children. -/
def setChildren : FNode → FForest → FNode
  | .mk nm t x y f c _, ch => .mk nm t x y f c ch

/-- View a forest as a list of nodes. -/
def toList : FForest → List FNode
  | .nil => []
  | .cons n rest => n :: toList rest

/-- Build a forest from a list of nodes. -/
def ofList : List FNode → FForest
  | [] => .nil
  | n :: rest => .cons n (ofList rest)

/-- Whether `'fills' in node` holds for this node kind (geometry nodes, text
and container frames expose fills; plain groups and slices do not). -/
def nodeHasFills : NType → Bool
  | .rectangle | .ellipse | .polygon | .star | .vector | .booleanOp | .line
  | .text | .frame | .component | .instanceNode => true
  | .group | .slice => false

/-- Whether `'children' in node` holds for this node kind. -/
def supportsChildren : NType → Bool
  | .frame | .group | .component | .instanceNode | .booleanOp => true
  | _ => false

/-- `isImageLayer` from `src/code.ts`: a fillable node whose type is one of
the seven geometric shape kinds. -/
def isImageLayer (n : FNode) : Bool :=
  nodeHasFills n.ntype &&
    match n.ntype with
    | .rectangle | .ellipse | .polygon | .star | .vector | .booleanOp | .line => true
    | _ => false

/-- Model of `node.findAll(p)` run over a forest of siblings: depth-first,
each node before its children, children before later siblings. -/
def findAllF (p : FNode → Bool) : FForest → List FNode
  | .nil => []
  | .cons (.mk nm t x y f c ch) rest =>
    (if p (.mk nm t x y f c ch) then [FNode.mk nm t x y f c ch] else [])
      ++ findAllF p ch ++ findAllF p rest

/-- Model of `node.findOne(p)`: the first node of `findAll` order. -/
def findOneF (p : FNode → Bool) (f : FForest) : Option FNode :=
  (findAllF p f).head?

/-- The placeholder fill written by the auto-seeder: a single solid
light-blue paint `{r: 0.53, g: 0.73, b: 0.93}`. -/
def placeholderFills : List Paint :=
  [Paint.solid (53/100) (73/100) (93/100)]

/-- Boolean counterpart of the position comparator
`(a, b) => a.y !== b.y ? a.y - b.y : a.x - b.x` (top-to-bottom, then
left-to-right). -/
def imgCmpLe (a b : FNode) : Bool :=
  if a.y < b.y then true
  else if b.y < a.y then false
  else decide (a.x ≤ b.x)

/-- Pair each element with its index, starting at `k`. -/
def idxFrom {α : Type} (k : Nat) : List α → List (Nat × α)
  | [] => []
  | a :: l => (k, a) :: idxFrom (k + 1) l

/-- Given the position-sorted image list (each node paired with its original
traversal index), record which new name each traversal index receives: the
node at sorted rank `i` gets `pat i`. -/
def rankNames (pat : Nat → String) (sorted : List (Nat × FNode)) : List (Nat × String) :=
  (idxFrom 0 sorted).map (fun p => (p.2.1, pat p.1))

/-- Look up the new name of traversal index `k`. -/
def lookupName (assoc : List (Nat × String)) (k : Nat) : String :=
  match assoc.find? (fun q => q.1 == k) with
  | some q => q.2
  | none => ""

/-- Rename every image layer of the forest in traversal order: the image
layer at traversal index `k` gets name `f k` and the placeholder fill;
returns the rewritten forest and the next free index. -/
def applyNamesF (f : Nat → String) : FForest → Nat → FForest × Nat
  | .nil, k => (.nil, k)
  | .cons (.mk nm t x y fl c ch) rest, k =>
    if isImageLayer (.mk nm t x y fl c ch) then
      let r1 := applyNamesF f ch (k + 1)
      let r2 := applyNamesF f rest r1.2
      (.cons (.mk (f k) t x y placeholderFills c r1.1) r2.1, r2.2)
    else
      let r1 := applyNamesF f ch k
      let r2 := applyNamesF f rest r1.2
      (.cons (.mk nm t x y fl c r1.1) r2.1, r2.2)

/-- The fixed five-slot Owners-Suite naming pattern. -/
def ownersPattern : List String :=
  ["Owners_1", "Owners_2", "Owners_Bath_1", "Owners_Bath_2", "Owners_WIC_1"]

/-- The name assigned to the sorted position `i` in the Owners-Suite branch:
`pattern[i]` for `i < pattern.length`, otherwise `Owners_<i+1>`. -/
def ownersName (i : Nat) : String :=
  if i < ownersPattern.length then ownersPattern.getD i ""
  else "Owners_" ++ Nat.repr (i + 1)

/-- The result of processing a single room block. -/
structure BlockOutcome where
  newBlock : FNode
  renamed : Nat
  processed : Nat
  issues : List String

/-- The per-block body of the `autoSeedRoomNames` loop (lines 283-373 of
`src/code.ts`): locate the title text node, check the trimmed title, collect
and position-sort the image layers, then run the Owners-Suite or the default
renaming branch. -/
def processBlock (b : FNode) : BlockOutcome :=
  match findOneF (fun n => n.ntype == NType.text) b.children with
  | none => ⟨b, 0, 0, ["Block \"" ++ b.name ++ "\": no text node found for room title."]⟩
  | some titleNode =>
    let title : String := ⟨jsTrim titleNode.chars.data⟩
    if title = "" then ⟨b, 0, 0, ["Block \"" ++ b.name ++ "\": title text is empty."]⟩
    else
      let imageNodes := findAllF isImageLayer b.children
      if imageNodes.isEmpty then
        ⟨b, 0, 0, ["Block \"" ++ b.name ++ "\": no image layers found to rename."]⟩
      else
        let sorted := sortS (fun p q => imgCmpLe p.2 q.2) (idxFrom 0 imageNodes)
        if isOwnersSuiteTitle title then
          let f := lookupName (rankNames ownersName sorted)
          ⟨setChildren b (applyNamesF f b.children 0).1, imageNodes.length, 1, []⟩
        else
          match deriveRoomTokenFromText title with
          | none =>
            ⟨b, 0, 0, ["Block \"" ++ b.name ++ "\": could not derive room token from \""
                        ++ title ++ "\"."]⟩
          | some token =>
            let f := lookupName (rankNames (fun i => token ++ "_" ++ Nat.repr (i + 1)) sorted)
            ⟨setChildren b (applyNamesF f b.children 0).1, imageNodes.length, 1, []⟩

/-- Accumulated outcome of the loop over a container's children. -/
structure SeedAcc where
  newChildren : List FNode
  renamed : Nat
  processed : Nat
  issues : List String

/-- Process the container's children in order: blocks (children supporting
children) go through `processBlock`; other children are untouched. -/
def processChildren : List FNode → SeedAcc
  | [] => ⟨[], 0, 0, []⟩
  | n :: rest =>
    let acc := processChildren rest
    if supportsChildren n.ntype then
      let o := processBlock n
      ⟨o.newBlock :: acc.newChildren, o.renamed + acc.renamed,
        o.processed + acc.processed, o.issues ++ acc.issues⟩
    else
      ⟨n :: acc.newChildren, acc.renamed, acc.processed, acc.issues⟩

/-- `AutoSeedResult` from `src/code.ts`. -/
structure AutoSeedResult where
  renamedLayers : Nat
  processedBlocks : Nat
  issues : List String
deriving DecidableEq, Repr

/-- `autoSeedRoomNames` from `src/code.ts`, returning both the rewritten
container and the reported result. -/
def autoSeedRoomNames (container : FNode) : FNode × AutoSeedResult :=
  let blocks := (toList container.children).filter (fun n => supportsChildren n.ntype)
  if blocks.isEmpty then
    (container, ⟨0, 0,
      ["No room blocks found. Expected child groups/frames under the selected node."]⟩)
  else
    let acc := processChildren (toList container.children)
    (setChildren container (ofList acc.newChildren),
      ⟨acc.renamed, acc.processed, acc.issues⟩)

/-- No two adjacent underscores. -/
def noDUS : List Char → Bool
  | [] => true
  | [_] => true
  | a :: b :: rest => !(a == '_' && b == '_') && noDUS (b :: rest)

/-- A fully normalized token: only `[a-z0-9_]`, no `__`, and no leading or
trailing underscore. This characterizes the image of `normalizeCore`. -/
def isNormTok (l : List Char) : Bool :=
  l.all (fun c => isLowerAlnum c || c == '_') && noDUS l &&
    l.head? != some '_' && l.getLast? != some '_'

theorem noDUS_of_cons {a : Char} {l : List Char} (h : noDUS (a :: l) = true) :
    noDUS l = true := by
  cases l with
  | nil => rfl
  | cons b t => simp [noDUS] at h; exact h.2

theorem noDUS_cons_of {a : Char} {l : List Char} (h : noDUS l = true)
    (hh : ∀ c, l.head? = some c → (a == '_' && c == '_') = false) :
    noDUS (a :: l) = true := by
  cases l with
  | nil => rfl
  | cons b t =>
    simp only [noDUS, Bool.and_eq_true]
    exact ⟨by rw [Bool.not_eq_true']; exact hh b rfl, h⟩

theorem squash_all (b : Bool) (l : List Char) :
    (squashAux b l).all (fun c => isLowerAlnum c || c == '_') = true := by
  induction l generalizing b with
  | nil => rfl
  | cons c cs ih =>
    by_cases hc : isLowerAlnum c = true
    · simp [squashAux, hc, ih]
    · cases b <;> simp [squashAux, hc, ih]

theorem squash_head_true (l : List Char) :
    ∀ c, (squashAux true l).head? = some c → isLowerAlnum c = true := by
  induction l with
  | nil => intro c h; simp [squashAux] at h
  | cons a cs ih =>
    intro c h
    by_cases ha : isLowerAlnum a = true
    · simp [squashAux, ha] at h; rw [← h]; exact ha
    · simp [squashAux, ha] at h; exact ih c h

theorem squash_noDUS (b : Bool) (l : List Char) : noDUS (squashAux b l) = true := by
  induction l generalizing b with
  | nil => rfl
  | cons c cs ih =>
    by_cases hc : isLowerAlnum c = true
    · simp only [squashAux, hc, if_pos]
      refine noDUS_cons_of (ih false) ?_
      intro d _
      have : (c == '_') = false := by
        cases hcu : c == '_'
        · rfl
        · exfalso; have := eq_of_beq hcu; subst this; exact absurd hc (by decide)
      simp [this]
    · cases b with
      | true => simpa [squashAux, hc] using ih true
      | false =>
        simp only [squashAux, hc, if_neg, Bool.false_eq_true, not_false_iff, if_false]
        refine noDUS_cons_of (ih true) ?_
        intro d hd
        have := squash_head_true cs d hd
        have hdu : (d == '_') = false := by
          cases hdu : d == '_'
          · rfl
          · exfalso; have heq := eq_of_beq hdu; subst heq; exact absurd this (by decide)
        simp [hdu]

theorem collapse_of_noDUS (l : List Char) (h : noDUS l = true) :
    collapseAux false l = l ∧ (l.head? ≠ some '_' → collapseAux true l = l) := by
  induction l with
  | nil => exact ⟨rfl, fun _ => rfl⟩
  | cons c cs ih =>
    have hcs := noDUS_of_cons h
    rcases ih hcs with ⟨ih1, ih2⟩
    by_cases hc : c = '_'
    · subst hc
      have hh : cs.head? ≠ some '_' := by
        intro hcon
        cases cs with
        | nil => simp at hcon
        | cons d t =>
          simp at hcon
          subst hcon
          simp [noDUS] at h
      constructor
      · simp [collapseAux, ih2 hh]
      · intro hcon; simp at hcon
    · have hcb : (c == '_') = false := by
        cases hcb : c == '_'
        · rfl
        · exact absurd (eq_of_beq hcb) hc
      constructor
      · simp [collapseAux, hcb, ih1]
      · intro _; simp [collapseAux, hcb, ih1]

theorem head?_dropWhile {p : Char → Bool} {l : List Char} {c : Char}
    (h : (l.dropWhile p).head? = some c) : p c = false := by
  induction l with
  | nil => simp [List.dropWhile] at h
  | cons a t ih =>
    by_cases hp : p a
    · simp [List.dropWhile, hp] at h; exact ih (by simpa using h)
    · simp [List.dropWhile, hp] at h; rw [← h]; simpa using hp

theorem dropWhile_eq_self_of_head {p : Char → Bool} {l : List Char}
    (h : ∀ c, l.head? = some c → p c = false) : l.dropWhile p = l := by
  cases l with
  | nil => rfl
  | cons a t => simp [List.dropWhile, h a rfl]

theorem dropWhile_append_single {p : Char → Bool} {a : Char} (m : List Char)
    (ha : p a = false) : (m ++ [a]).dropWhile p = m.dropWhile p ++ [a] := by
  induction m with
  | nil => simp [List.dropWhile, ha]
  | cons b t ih =>
    by_cases hb : p b
    · simp [List.dropWhile, hb, ih]
    · simp [List.dropWhile, hb]

theorem head?_trimBy {p : Char → Bool} {l : List Char} {c : Char}
    (h : (trimBy p l).head? = some c) : p c = false := by
  unfold trimBy dropTrailing at h
  rcases hm : l.dropWhile p with _ | ⟨a, t⟩
  · rw [hm] at h; simp at h
  · rw [hm] at h
    have ha : p a = false := head?_dropWhile (by rw [hm]; rfl)
    rw [show (a :: t).reverse = t.reverse ++ [a] by simp,
      dropWhile_append_single _ ha] at h
    simp at h
    rw [← h]; exact ha

theorem getLast?_trimBy {p : Char → Bool} {l : List Char} {c : Char}
    (h : (trimBy p l).getLast? = some c) : p c = false := by
  unfold trimBy dropTrailing at h
  rw [List.getLast?_reverse] at h
  exact head?_dropWhile h

theorem mem_trimBy {p : Char → Bool} {l : List Char} {a : Char}
    (h : a ∈ trimBy p l) : a ∈ l := by
  unfold trimBy dropTrailing at h
  rw [List.mem_reverse] at h
  have h1 := (List.dropWhile_sublist p).subset h
  rw [List.mem_reverse] at h1
  exact (List.dropWhile_sublist p).subset h1

theorem all_trimBy {p q : Char → Bool} {l : List Char} (h : l.all q = true) :
    (trimBy p l).all q = true := by
  rw [List.all_eq_true] at h ⊢
  exact fun x hx => h x (mem_trimBy hx)

theorem noDUS_dropWhile {p : Char → Bool} {l : List Char} (h : noDUS l = true) :
    noDUS (l.dropWhile p) = true := by
  induction l with
  | nil => rfl
  | cons a t ih =>
    by_cases hp : p a
    · simp only [List.dropWhile, hp, if_pos]; exact ih (noDUS_of_cons h)
    · simpa [List.dropWhile, hp] using h

theorem noDUS_iff_chain {l : List Char} :
    noDUS l = true ↔ List.Chain' (fun a b => ¬(a = '_' ∧ b = '_')) l := by
  induction l with
  | nil => simp [noDUS]
  | cons a t ih =>
    cases t with
    | nil => simp [noDUS]
    | cons b r =>
      rw [List.chain'_cons, ← ih]
      constructor
      · intro h
        simp only [noDUS, Bool.and_eq_true, Bool.not_eq_true'] at h
        refine ⟨?_, h.2⟩
        intro hc
        rcases hc with ⟨h1, h2⟩
        subst h1; subst h2
        simp at h
      · rintro ⟨h1, h2⟩
        simp only [noDUS, Bool.and_eq_true, Bool.not_eq_true']
        refine ⟨?_, h2⟩
        cases hab : (a == '_' && b == '_')
        · rfl
        · rw [Bool.and_eq_true, beq_iff_eq, beq_iff_eq] at hab
          exact absurd hab h1

theorem noDUS_reverse {l : List Char} (h : noDUS l = true) : noDUS l.reverse = true := by
  rw [noDUS_iff_chain] at h ⊢
  rw [List.chain'_reverse]
  exact h.imp (fun a b hab hc => hab ⟨hc.2, hc.1⟩)

theorem noDUS_trimBy {p : Char → Bool} {l : List Char} (h : noDUS l = true) :
    noDUS (trimBy p l) = true := by
  unfold trimBy dropTrailing
  exact noDUS_reverse (noDUS_dropWhile (noDUS_reverse (noDUS_dropWhile h)))

theorem trimBy_eq_self {p : Char → Bool} {l : List Char}
    (hh : ∀ c, l.head? = some c → p c = false)
    (hl : ∀ c, l.getLast? = some c → p c = false) : trimBy p l = l := by
  unfold trimBy dropTrailing
  rw [dropWhile_eq_self_of_head hh]
  rw [dropWhile_eq_self_of_head (fun c hc => hl c (by rwa [List.head?_reverse] at hc))]
  exact List.reverse_reverse l

theorem toLower_fixed {c : Char} (h : (isLowerAlnum c || c == '_') = true) :
    Char.toLower c = c := by
  rcases Bool.or_eq_true _ _ ▸ h with h1 | h1
  · unfold Char.toLower
    have hn : ¬ (c.toNat ≥ 65 ∧ c.toNat ≤ 90) := by
      simp only [isLowerAlnum, Bool.or_eq_true, Bool.and_eq_true, decide_eq_true_eq] at h1
      rcases h1 with ⟨ha, hb⟩ | ⟨ha, hb⟩ <;>
      · rw [Char.le_def] at ha hb
        simp [UInt32.le_def, BitVec.le_def] at ha hb
        simp [Char.toNat, UInt32.toNat]
        omega
    simp [hn]
  · have : c = '_' := eq_of_beq h1
    subst this; decide

theorem map_toLower_id {l : List Char}
    (h : l.all (fun c => isLowerAlnum c || c == '_') = true) :
    l.map Char.toLower = l := by
  rw [List.all_eq_true] at h
  induction l with
  | nil => rfl
  | cons a t ih =>
    simp only [List.map_cons]
    rw [toLower_fixed (h a (by simp)), ih (fun x hx => h x (by simp [hx]))]

theorem not_dot_slash {c : Char} (h : (isLowerAlnum c || c == '_') = true) :
    (c == '.' || c == '/') = false := by
  cases hc : (c == '.' || c == '/')
  · rfl
  · exfalso
    rcases Bool.or_eq_true _ _ ▸ hc with h1 | h1 <;>
    · have := eq_of_beq h1
      subst this
      exact absurd h (by decide)

theorem stripExt_id {l : List Char}
    (h : l.all (fun c => isLowerAlnum c || c == '_') = true) :
    stripExtCore l = l := by
  rw [List.all_eq_true] at h
  have hnil : l.reverse.dropWhile (fun c => !(c == '.' || c == '/')) = [] := by
    rw [List.dropWhile_eq_nil_iff]
    intro x hx
    rw [List.mem_reverse] at hx
    simp [not_dot_slash (h x hx)]
  unfold stripExtCore
  dsimp only
  rw [hnil]

theorem squash_id {l : List Char}
    (hall : l.all (fun c => isLowerAlnum c || c == '_') = true)
    (hd : noDUS l = true) :
    squashAux false l = l ∧ (l.head? ≠ some '_' → squashAux true l = l) := by
  induction l with
  | nil => exact ⟨rfl, fun _ => rfl⟩
  | cons c cs ih =>
    have hc : (isLowerAlnum c || c == '_') = true := by
      rw [List.all_eq_true] at hall; exact hall c (by simp)
    have hcs : cs.all (fun c => isLowerAlnum c || c == '_') = true := by
      rw [List.all_eq_true] at hall ⊢; exact fun x hx => hall x (by simp [hx])
    rcases ih hcs (noDUS_of_cons hd) with ⟨ih1, ih2⟩
    rcases Bool.or_eq_true _ _ ▸ hc with h1 | h1
    · exact ⟨by simp [squashAux, h1, ih1], fun _ => by simp [squashAux, h1, ih1]⟩
    · have hcu : c = '_' := eq_of_beq h1
      subst hcu
      have hna : isLowerAlnum '_' = false := by decide
      have hh : cs.head? ≠ some '_' := by
        intro hcon
        cases cs with
        | nil => simp at hcon
        | cons d t =>
          simp at hcon
          subst hcon
          simp [noDUS] at hd
      constructor
      · simp [squashAux, hna, ih2 hh]
      · intro hcon; simp at hcon

theorem normTok_A (l : List Char) : isNormTok (normalizeCore l) = true := by
  unfold normalizeCore
  have hall := squash_all false (stripExtCore (l.map Char.toLower))
  have hd := squash_noDUS false (stripExtCore (l.map Char.toLower))
  rw [(collapse_of_noDUS _ hd).1]
  simp only [isNormTok, Bool.and_eq_true]
  refine ⟨⟨⟨all_trimBy hall, noDUS_trimBy hd⟩, ?_⟩, ?_⟩
  · cases hh : (trimBy (fun c => c == '_') (squashAux false (stripExtCore (l.map Char.toLower)))).head? with
    | none => rfl
    | some c =>
      have h2 := head?_trimBy hh
      simp only [bne_iff_ne, ne_eq, Option.some.injEq]
      intro hcon
      subst hcon
      simp at h2
  · cases hh : (trimBy (fun c => c == '_') (squashAux false (stripExtCore (l.map Char.toLower)))).getLast? with
    | none => rfl
    | some c =>
      have h2 := getLast?_trimBy hh
      simp only [bne_iff_ne, ne_eq, Option.some.injEq]
      intro hcon
      subst hcon
      simp at h2

theorem normTok_B {l : List Char} (h : isNormTok l = true) : normalizeCore l = l := by
  unfold isNormTok at h
  rw [Bool.and_eq_true, Bool.and_eq_true, Bool.and_eq_true] at h
  rcases h with ⟨⟨⟨hall, hd⟩, hh⟩, hl⟩
  unfold normalizeCore
  rw [map_toLower_id hall, stripExt_id hall, (squash_id hall hd).1,
    (collapse_of_noDUS _ hd).1]
  refine trimBy_eq_self ?_ ?_
  · intro c hc
    rw [hc] at hh
    simpa using hh
  · intro c hc
    rw [hc] at hl
    simpa using hl

/-- C6: the Normalizer is idempotent — `normalize(normalize(x)) ==
normalize(x)` for every input string `x` — and empty input yields empty
output. -/
theorem C6_normalize_idempotent :
    (∀ x : String, normalizeToken (normalizeToken x) = normalizeToken x) ∧
      normalizeToken "" = "" := by
  constructor
  · intro x
    show (⟨normalizeCore (normalizeCore x.data)⟩ : String) = ⟨normalizeCore x.data⟩
    rw [normTok_B (normTok_A x.data)]
  · rfl

/-- `kw` occurs in `s` as a whole underscore-delimited token: at some
position `i`, preceded by the start of the string or a `_`, and followed by
the end of the string or a `_`. -/
def occursAsToken (s kw : List Char) : Prop :=
  ∃ i, (i = 0 ∨ s.get? (i - 1) = some '_') ∧ subAt s i kw = true ∧
    (s.length = i + kw.length ∨ s.get? (i + kw.length) = some '_')

theorem findSome?_isSome_of_mem {α β : Type} {f : α → Option β} {l : List α} {a : α}
    (ha : a ∈ l) (hf : (f a).isSome = true) : (l.findSome? f).isSome = true := by
  induction l with
  | nil => simp at ha
  | cons b t ih =>
    rw [List.findSome?_cons]
    cases hb : f b with
    | some v => rfl
    | none =>
      rcases List.mem_cons.1 ha with h | h
      · subst h; rw [hb] at hf; simp at hf
      · exact ih h

theorem exists_mem_of_findSome?_eq_some {α β : Type} {f : α → Option β} {l : List α}
    {b : β} (h : l.findSome? f = some b) : ∃ a ∈ l, f a = some b := by
  induction l with
  | nil => simp [List.findSome?] at h
  | cons a t ih =>
    rw [List.findSome?_cons] at h
    cases ha : f a with
    | some v =>
      rw [ha] at h
      have hvb : some v = some b := h
      exact ⟨a, by simp, by rw [ha]; exact hvb⟩
    | none =>
      rw [ha] at h
      have h2 : List.findSome? f t = some b := h
      rcases ih h2 with ⟨x, hx, hfx⟩
      exact ⟨x, by simp [hx], hfx⟩

theorem matchLenAt_some_occurs {s kw : List Char} {i len : Nat}
    (h : matchLenAt s kw i = some len) : occursAsToken s kw := by
  unfold matchLenAt at h
  by_cases hi : i = 0
  · rw [if_pos hi] at h
    cases hb : branchEnd s kw 0 0 with
    | some v =>
      unfold branchEnd at hb
      by_cases hs : subAt s (0 + 0) kw = true
      · rw [if_pos hs] at hb
        cases ht : tailLen s (0 + 0 + kw.length) with
        | none => rw [ht] at hb; simp at hb
        | some t =>
          refine ⟨0, Or.inl rfl, by simpa using hs, ?_⟩
          unfold tailLen at ht
          by_cases hl : s.length = 0 + 0 + kw.length
          · exact Or.inl (by simpa using hl)
          · rw [if_neg hl] at ht
            by_cases hg : s.get? (0 + 0 + kw.length) = some '_'
            · exact Or.inr (by simpa using hg)
            · rw [if_neg hg] at ht; simp at ht
      · rw [if_neg hs] at hb; simp at hb
    | none =>
      rw [hb] at h
      dsimp only at h
      by_cases hg : s.get? 0 = some '_'
      · rw [if_pos hg] at h
        unfold branchEnd at h
        by_cases hs : subAt s (0 + 1) kw = true
        · rw [if_pos hs] at h
          cases ht : tailLen s (0 + 1 + kw.length) with
          | none => rw [ht] at h; simp at h
          | some t =>
            refine ⟨1, Or.inr (by simpa using hg), by simpa using hs, ?_⟩
            unfold tailLen at ht
            by_cases hl : s.length = 0 + 1 + kw.length
            · exact Or.inl (by omega)
            · rw [if_neg hl] at ht
              by_cases hg2 : s.get? (0 + 1 + kw.length) = some '_'
              · exact Or.inr (by simpa using hg2)
              · rw [if_neg hg2] at ht; simp at ht
        · rw [if_neg hs] at h; simp at h
      · rw [if_neg hg] at h; simp at h
  · rw [if_neg hi] at h
    by_cases hg : s.get? i = some '_'
    · rw [if_pos hg] at h
      unfold branchEnd at h
      by_cases hs : subAt s (i + 1) kw = true
      · rw [if_pos hs] at h
        cases ht : tailLen s (i + 1 + kw.length) with
        | none => rw [ht] at h; simp at h
        | some t =>
          refine ⟨i + 1, Or.inr (by simpa using hg), hs, ?_⟩
          unfold tailLen at ht
          by_cases hl : s.length = i + 1 + kw.length
          · exact Or.inl hl
          · rw [if_neg hl] at ht
            by_cases hg2 : s.get? (i + 1 + kw.length) = some '_'
            · exact Or.inr hg2
            · rw [if_neg hg2] at ht; simp at ht
      · rw [if_neg hs] at h; simp at h
    · rw [if_neg hg] at h; simp at h

theorem tailLen_isSome {s : List Char} {j : Nat}
    (h : s.length = j ∨ s.get? j = some '_') : (tailLen s j).isSome = true := by
  unfold tailLen
  by_cases hl : s.length = j
  · rw [if_pos hl]; rfl
  · rw [if_neg hl]
    rcases h with h | h
    · exact absurd h hl
    · rw [if_pos h]; rfl

theorem branchEnd_isSome {s kw : List Char} {p pre : Nat}
    (hsub : subAt s (p + pre) kw = true)
    (htail : s.length = p + pre + kw.length ∨ s.get? (p + pre + kw.length) = some '_') :
    (branchEnd s kw p pre).isSome = true := by
  unfold branchEnd
  rw [if_pos hsub]
  cases ht : tailLen s (p + pre + kw.length) with
  | some t => rfl
  | none =>
    have h2 := tailLen_isSome htail
    rw [ht] at h2
    simp at h2

theorem occurs_matchLenAt {s kw : List Char} (h : occursAsToken s kw) :
    ∃ p, p ≤ s.length ∧ (matchLenAt s kw p).isSome = true := by
  rcases h with ⟨i, hpre, hsub, htail⟩
  by_cases hi : i = 0
  · subst hi
    refine ⟨0, Nat.zero_le _, ?_⟩
    unfold matchLenAt
    rw [if_pos rfl]
    have hb : (branchEnd s kw 0 0).isSome = true :=
      branchEnd_isSome (by simpa using hsub) (by simpa using htail)
    cases hbv : branchEnd s kw 0 0 with
    | some v => rfl
    | none => rw [hbv] at hb; simp at hb
  · have hget : s.get? (i - 1) = some '_' := by
      rcases hpre with h | h
      · exact absurd h hi
      · exact h
    have hlt : i - 1 < s.length := List.get?_eq_some.1 hget |>.1
    refine ⟨i - 1, Nat.le_of_lt hlt, ?_⟩
    have hi1 : i - 1 + 1 = i := by omega
    by_cases hp : i - 1 = 0
    · rw [hp]
      unfold matchLenAt
      rw [if_pos rfl]
      have hb1 : (branchEnd s kw 0 1).isSome = true := by
        refine branchEnd_isSome ?_ ?_
        · rw [show 0 + 1 = i by omega]; exact hsub
        · rw [show 0 + 1 + kw.length = i + kw.length by omega]; exact htail
      cases hbv : branchEnd s kw 0 0 with
      | some v => rfl
      | none =>
        dsimp only
        rw [if_pos (by rw [show (0 : Nat) = i - 1 by omega]; exact hget)]
        exact hb1
    · unfold matchLenAt
      rw [if_neg hp]
      rw [if_pos hget]
      refine branchEnd_isSome ?_ ?_
      · rw [show i - 1 + 1 = i from hi1]; exact hsub
      · rw [show i - 1 + 1 + kw.length = i + kw.length by omega]; exact htail

theorem firstMatch_isSome_iff {s kw : List Char} :
    (firstMatch s kw).isSome = true ↔ occursAsToken s kw := by
  constructor
  · intro h
    unfold firstMatch at h
    cases hf : (List.range (s.length + 1)).findSome?
        (fun i => (matchLenAt s kw i).map (fun len => (i, len))) with
    | none => rw [hf] at h; simp at h
    | some b =>
      rcases exists_mem_of_findSome?_eq_some hf with ⟨p, _, hp⟩
      cases hm : matchLenAt s kw p with
      | none => rw [hm] at hp; simp at hp
      | some len => exact matchLenAt_some_occurs hm
  · intro h
    rcases occurs_matchLenAt h with ⟨p, hple, hpm⟩
    unfold firstMatch
    have hmem : p ∈ List.range (s.length + 1) := List.mem_range.2 (by omega)
    refine findSome?_isSome_of_mem hmem ?_
    cases hm : matchLenAt s kw p with
    | none => rw [hm] at hpm; simp at hpm
    | some len => rfl

theorem find?_append_first {α : Type} (p : α → Bool) (l₁ l₂ : List α) (a : α)
    (h1 : ∀ j ∈ l₁, p j = false) (h2 : p a = true) :
    (l₁ ++ a :: l₂).find? p = some a := by
  induction l₁ with
  | nil => simpa using List.find?_cons_of_pos l₂ h2
  | cons b t ih =>
    rw [List.cons_append, List.find?_cons_of_neg _ (by simp [h1 b (by simp)])]
    exact ih (fun j hj => h1 j (by simp [hj]))

/-- C1: the Filename Resolver scans the catalog in specificity order; it
reports no-match exactly when no catalog entry's normalized form occurs in
the normalized filename as a whole underscore-delimited token, the first
catalog entry that so occurs wins, and in particular
`resolveTarget("Owners_Bath_1.png") = "Owners_Bath_1"`, never plain
`"Owners_1"`. -/
theorem C1_resolver_first_token_match :
    (∀ name : String,
      parseFilenameToTargetLayer name = none ↔
        ∀ info ∈ ROOM_KEYWORD_INFO,
          ¬ occursAsToken (normalizeToken (stripExtension name)).data info.norm.data) ∧
    (∀ (name : String) (l₁ l₂ : List RoomKeywordInfo) (info : RoomKeywordInfo),
      ROOM_KEYWORD_INFO = l₁ ++ info :: l₂ →
      (∀ j ∈ l₁, ¬ occursAsToken (normalizeToken (stripExtension name)).data j.norm.data) →
      occursAsToken (normalizeToken (stripExtension name)).data info.norm.data →
      ∃ idx : List Char,
        parseFilenameToTargetLayer name = some (info.raw ++ "_" ++ ⟨idx⟩)) ∧
    parseFilenameToTargetLayer "Owners_Bath_1.png" = some "Owners_Bath_1" ∧
    parseFilenameToTargetLayer "Owners_Bath_1.png" ≠ some "Owners_1" := by
  refine ⟨?_, ?_, by decide, by decide⟩
  · intro name
    unfold parseFilenameToTargetLayer
    dsimp only
    cases hf : ROOM_KEYWORD_INFO.find?
        (fun info => (firstMatch (normalizeToken (stripExtension name)).data info.norm.data).isSome) with
    | none =>
      dsimp only
      constructor
      · intro _ info hinfo hocc
        have hno := List.find?_eq_none.1 hf info hinfo
        exact hno (firstMatch_isSome_iff.2 hocc)
      · intro _; rfl
    | some info =>
      dsimp only
      constructor
      · intro hcon; simp at hcon
      · intro hall
        exfalso
        have hmem := List.mem_of_find?_eq_some hf
        have hpred := List.find?_some hf
        exact hall info hmem (firstMatch_isSome_iff.1 hpred)
  · intro name l₁ l₂ info heq hnot hocc
    unfold parseFilenameToTargetLayer
    dsimp only
    have hf : ROOM_KEYWORD_INFO.find?
        (fun i => (firstMatch (normalizeToken (stripExtension name)).data i.norm.data).isSome) = some info := by
      rw [heq]
      refine find?_append_first _ _ _ _ ?_ (firstMatch_isSome_iff.2 hocc)
      intro j hj
      cases hb : (firstMatch (normalizeToken (stripExtension name)).data j.norm.data).isSome
      · rfl
      · exact absurd (firstMatch_isSome_iff.1 hb) (hnot j hj)
    rw [hf]
    exact ⟨resolveIdx (normalizeToken (stripExtension name)).data info, rfl⟩

theorem takeWhile_append_all {p : Char → Bool} {ds m : List Char}
    (hall : ds.all p = true) (hm : ∀ c, m.head? = some c → p c = false) :
    (ds ++ m).takeWhile p = ds ∧ (ds ++ m).dropWhile p = m := by
  induction ds with
  | nil =>
    simp only [List.nil_append]
    cases m with
    | nil => exact ⟨rfl, rfl⟩
    | cons c t =>
      have := hm c rfl
      constructor
      · rw [List.takeWhile_cons]; simp [this]
      · rw [List.dropWhile_cons]; simp [this]
  | cons d t ih =>
    rw [List.all_cons, Bool.and_eq_true] at hall
    rcases ih hall.2 with ⟨ih1, ih2⟩
    constructor
    · rw [List.cons_append, List.takeWhile_cons]; simp [hall.1, ih1]
    · rw [List.cons_append, List.dropWhile_cons]; simp [hall.1, ih2]

theorem head?_append_digits {ds m : List Char} (hne : ds ≠ [])
    (hall : ds.all Char.isDigit = true) : ((ds ++ m).head? = some '_') = False := by
  cases ds with
  | nil => exact absurd rfl hne
  | cons d t =>
    rw [List.all_cons, Bool.and_eq_true] at hall
    simp only [List.cons_append, List.head?_cons, Option.some.injEq, eq_iff_iff,
      iff_false]
    intro hcon
    subst hcon
    exact absurd hall.1 (by decide)

/-- C3: when the text after the matched keyword fits the `N of M` pattern —
digits immediately after an optional separator underscore, then an optional
underscore, the literal `of` and more digits — only the first digit group is
kept and the `of M` part is discarded; in particular
`resolveTarget("Kitchen_3of4.png") = "Kitchen_3"`. -/
theorem C3_n_of_m_keeps_first_digits :
    (∀ (ds m k : List Char), ds ≠ [] → ds.all Char.isDigit = true →
      (m = 'o' :: 'f' :: k ∨ m = '_' :: 'o' :: 'f' :: k) →
      (∃ d, k.head? = some d ∧ d.isDigit = true) →
      ofMatch (ds ++ m) = some ds ∧ ofMatch ('_' :: (ds ++ m)) = some ds ∧
      extractIndex (ds ++ m) = ds ∧ extractIndex ('_' :: (ds ++ m)) = ds) ∧
    parseFilenameToTargetLayer "Kitchen_3of4.png" = some "Kitchen_3" := by
  constructor
  · intro ds m k hne hall hm hk
    have hmhead : ∀ c, m.head? = some c → Char.isDigit c = false := by
      intro c hc
      rcases hm with h | h <;> (subst h; simp at hc; subst hc; decide)
    rcases takeWhile_append_all hall hmhead with ⟨htw, hdw⟩
    have hdse : ds.isEmpty = false := by
      cases ds with
      | nil => exact absurd rfl hne
      | cons a b => rfl
    obtain ⟨d, hkd, hdd⟩ := hk
    have hktw : (List.takeWhile Char.isDigit k).isEmpty = false := by
      cases k with
      | nil => simp at hkd
      | cons a t =>
        simp at hkd
        subst hkd
        rw [List.takeWhile_cons, if_pos hdd]
        rfl
    have hcore : ofMatchCore (ds ++ m) = some ds := by
      cases k with
      | nil => simp at hkd
      | cons a t =>
        rw [List.head?_cons, Option.some.injEq] at hkd
        subst hkd
        have hno : ¬(('o' : Char) = '_') := by decide
        unfold ofMatchCore
        dsimp only
        rw [htw, hdw]
        rcases hm with h | h <;> subst h
        · simp [hdse, hno, List.isPrefixOf, List.takeWhile_cons, hdd]
        · simp [hdse, List.isPrefixOf, List.takeWhile_cons, hdd]
    have hhead : ¬ ((ds ++ m).head? = some '_') := by
      cases ds with
      | nil => exact absurd rfl hne
      | cons a t =>
        rw [List.all_cons, Bool.and_eq_true] at hall
        simp only [List.cons_append, List.head?_cons, Option.some.injEq]
        intro hcon
        subst hcon
        exact absurd hall.1 (by decide)
    have hof : ofMatch (ds ++ m) = some ds := by
      unfold ofMatch
      rw [if_neg hhead]
      exact hcore
    have hof2 : ofMatch ('_' :: (ds ++ m)) = some ds := by
      unfold ofMatch
      rw [if_pos (by simp)]
      simpa using hcore
    refine ⟨hof, hof2, ?_, ?_⟩
    · unfold extractIndex; rw [hof]
    · unfold extractIndex; rw [hof2]
  · decide

/-- C4: a tail whose first character after the separator underscore is not a
digit (such as `_F2`, whose text after the consumed separator is `F2`)
matches neither index pattern, so the index defaults to `1`; in particular
`resolveTarget("Bath3_F2.png") = "Bath3_1"`, not `"Bath3_2"`. -/
theorem C4_nonadjacent_digit_defaults_to_one :
    (∀ (c : Char) (rest : List Char), c.isDigit = false → ¬(c = '_') →
      ofMatch (c :: rest) = none ∧ underscoreMatch (c :: rest) = none ∧
      extractIndex (c :: rest) = ['1'] ∧
      ofMatch ('_' :: c :: rest) = none ∧ underscoreMatch ('_' :: c :: rest) = none ∧
      extractIndex ('_' :: c :: rest) = ['1']) ∧
    parseFilenameToTargetLayer "Bath3_F2.png" = some "Bath3_1" ∧
    parseFilenameToTargetLayer "Bath3_F2.png" ≠ some "Bath3_2" := by
  refine ⟨?_, by decide, by decide⟩
  intro c rest hcd hcu
  have hofc : ofMatchCore (c :: rest) = none := by
    unfold ofMatchCore
    dsimp only
    simp [List.takeWhile_cons, hcd]
  have husc : underscoreMatchCore (c :: rest) = none := by
    unfold underscoreMatchCore
    dsimp only
    simp [List.takeWhile_cons, hcd]
  have hof1 : ofMatch (c :: rest) = none := by
    unfold ofMatch
    rw [if_neg (by simp [hcu])]
    exact hofc
  have hus1 : underscoreMatch (c :: rest) = none := by
    unfold underscoreMatch
    rw [if_neg (by simp [hcu])]
    exact husc
  have hof2 : ofMatch ('_' :: c :: rest) = none := by
    unfold ofMatch
    rw [if_pos (by simp)]
    simpa using hofc
  have hus2 : underscoreMatch ('_' :: c :: rest) = none := by
    unfold underscoreMatch
    rw [if_pos (by simp)]
    simpa using husc
  refine ⟨hof1, hus1, ?_, hof2, hus2, ?_⟩
  · unfold extractIndex; rw [hof1, hus1]
  · unfold extractIndex; rw [hof2, hus2]

/-- A nonempty digit string denoting a positive integer rendered without
leading zeros (the spec's index format). -/
def isPosNoLeadZero (l : List Char) : Bool :=
  !l.isEmpty && l.all Char.isDigit && l.head? != some '0'

/-- The spec's `TargetLayerIdentifier` format: `<RawKeyword>_<index>` with
`index` a positive integer rendered without leading zeros. -/
def wellFormedTarget (r : String) : Prop :=
  ∃ info ∈ ROOM_KEYWORD_INFO, ∃ idx : List Char,
    r.data = info.raw.data ++ '_' :: idx ∧ isPosNoLeadZero idx = true

/-- Executable counterpart of `wellFormedTarget`. -/
def wellFormedTargetB (r : String) : Bool :=
  ROOM_KEYWORD_INFO.any (fun info =>
    (info.raw.data ++ ['_']).isPrefixOf r.data &&
      isPosNoLeadZero (r.data.drop (info.raw.data.length + 1)))

theorem isPrefixOf_iff_exists {p l : List Char} :
    p.isPrefixOf l = true ↔ ∃ t, l = p ++ t := by
  induction p generalizing l with
  | nil => simp [List.isPrefixOf]
  | cons a as ih =>
    cases l with
    | nil => simp [List.isPrefixOf]
    | cons b bs =>
      rw [List.isPrefixOf]
      rw [Bool.and_eq_true, beq_iff_eq, ih]
      constructor
      · rintro ⟨hab, t, ht⟩
        exact ⟨t, by rw [List.cons_append, hab, ht]⟩
      · rintro ⟨t, ht⟩
        rw [List.cons_append] at ht
        injection ht with h1 h2
        exact ⟨h1.symm, t, h2⟩

theorem wellFormedTarget_iff {r : String} :
    wellFormedTarget r ↔ wellFormedTargetB r = true := by
  unfold wellFormedTarget wellFormedTargetB
  rw [List.any_eq_true]
  constructor
  · rintro ⟨info, hmem, idx, hr, hpos⟩
    refine ⟨info, hmem, ?_⟩
    rw [Bool.and_eq_true]
    have hr2 : r.data = (info.raw.data ++ ['_']) ++ idx := by
      rw [hr, List.append_assoc]; rfl
    constructor
    · exact isPrefixOf_iff_exists.2 ⟨idx, hr2⟩
    · have hlen : info.raw.data.length + 1 = (info.raw.data ++ ['_']).length := by simp
      rw [hlen, hr2, List.drop_left]
      exact hpos
  · rintro ⟨info, hmem, hp⟩
    rw [Bool.and_eq_true] at hp
    rcases isPrefixOf_iff_exists.1 hp.1 with ⟨t, ht⟩
    refine ⟨info, hmem, t, ?_, ?_⟩
    · rw [ht, List.append_assoc]; rfl
    · have hlen : info.raw.data.length + 1 = (info.raw.data ++ ['_']).length := by simp
      have := hp.2
      rw [hlen, ht, List.drop_left] at this
      exact this

/-- C5 as stated is false: on `"Kitchen_0.png"` the resolver returns a match
`"Kitchen_0"` whose index `"0"` is not a positive integer (and on
`"Kitchen_007.png"` it returns `"Kitchen_007"`, with leading zeros). -/
theorem C5_counterexample_index_not_positive :
    parseFilenameToTargetLayer "Kitchen_0.png" = some "Kitchen_0" ∧
    ¬ wellFormedTarget "Kitchen_0" ∧
    parseFilenameToTargetLayer "Kitchen_007.png" = some "Kitchen_007" ∧
    ¬ wellFormedTarget "Kitchen_007" := by
  refine ⟨by decide, ?_, by decide, ?_⟩
  · intro h
    exact absurd (wellFormedTarget_iff.1 h) (by decide)
  · intro h
    exact absurd (wellFormedTarget_iff.1 h) (by decide)

theorem takeWhile_all {p : Char → Bool} (l : List Char) :
    (l.takeWhile p).all p = true := by
  induction l with
  | nil => rfl
  | cons a t ih =>
    rw [List.takeWhile_cons]
    by_cases ha : p a
    · simp [ha, ih]
    · simp [ha]

theorem ofMatch_some_digits {l ds : List Char} (h : ofMatch l = some ds) :
    ds ≠ [] ∧ ds.all Char.isDigit = true := by
  unfold ofMatch ofMatchCore at h
  dsimp only at h
  split_ifs at h <;>
    first
      | exact Option.noConfusion h
      | (simp only [Option.some.injEq] at h
         subst h
         refine ⟨fun hcon => ?_, takeWhile_all _⟩
         simp_all)

theorem underscoreMatch_some_digits {l ds : List Char} (h : underscoreMatch l = some ds) :
    ds ≠ [] ∧ ds.all Char.isDigit = true := by
  unfold underscoreMatch underscoreMatchCore at h
  dsimp only at h
  split_ifs at h <;>
    first
      | exact Option.noConfusion h
      | (simp only [Option.some.injEq] at h
         subst h
         refine ⟨fun hcon => ?_, takeWhile_all _⟩
         simp_all)

theorem extractIndex_digits (l : List Char) :
    extractIndex l ≠ [] ∧ (extractIndex l).all Char.isDigit = true := by
  unfold extractIndex
  cases hof : ofMatch l with
  | some ds =>
    dsimp only
    exact ofMatch_some_digits hof
  | none =>
    cases hus : underscoreMatch l with
    | some ds =>
      dsimp only
      exact underscoreMatch_some_digits hus
    | none =>
      dsimp only
      exact ⟨by simp, by decide⟩

/-- C5 amended: whenever the resolver returns a match, the result has the
form `<RawKeyword>_<index>` for a catalog entry, where `index` is a nonempty
digit string taken verbatim from the filename (it may be `0` or carry
leading zeros), defaulting to `"1"` when neither index pattern matches. -/
theorem C5_amended_match_form :
    (∀ (name r : String), parseFilenameToTargetLayer name = some r →
      ∃ info ∈ ROOM_KEYWORD_INFO, ∃ idx : List Char,
        r = info.raw ++ "_" ++ ⟨idx⟩ ∧ idx ≠ [] ∧ idx.all Char.isDigit = true) ∧
    (∀ l : List Char, ofMatch l = none → underscoreMatch l = none →
      extractIndex l = ['1']) := by
  constructor
  · intro name r h
    unfold parseFilenameToTargetLayer at h
    dsimp only at h
    cases hf : ROOM_KEYWORD_INFO.find?
        (fun info => (firstMatch (normalizeToken (stripExtension name)).data info.norm.data).isSome) with
    | none => rw [hf] at h; simp at h
    | some info =>
      rw [hf] at h
      simp only [Option.some.injEq] at h
      refine ⟨info, List.mem_of_find?_eq_some hf,
        resolveIdx (normalizeToken (stripExtension name)).data info, h.symm, ?_⟩
      unfold resolveIdx
      cases hm : firstMatch (normalizeToken (stripExtension name)).data info.norm.data with
      | some pl =>
        dsimp only
        exact extractIndex_digits _
      | none =>
        dsimp only
        exact ⟨by simp, by decide⟩
  · intro l h1 h2
    unfold extractIndex
    rw [h1, h2]

/-- C2 as stated is false in one respect: two distinct catalog entries do
collide at equal normalized length — the entries at positions 1 and 2 of
`ROOM_KEYWORD_INFO` are `Owners_Bath` and `Kitchenette`, both with
normalized length 11 (many further ties exist at lengths 7 down to 3). -/
theorem C2_counterexample_equal_length_tie :
    (ROOM_KEYWORD_INFO.get? 1).map RoomKeywordInfo.raw = some "Owners_Bath" ∧
    (ROOM_KEYWORD_INFO.get? 2).map RoomKeywordInfo.raw = some "Kitchenette" ∧
    (ROOM_KEYWORD_INFO.get? 1).map (fun i => i.norm.length) = some 11 ∧
    (ROOM_KEYWORD_INFO.get? 2).map (fun i => i.norm.length) = some 11 := by
  refine ⟨by decide, by decide, by decide, by decide⟩

/-- C2 amended: the catalog, built once by normalizing each raw keyword, is
sorted by descending normalized length with ties keeping the original
declaration order (for every length, the entries of that length appear in
declaration order), and no two entries share the same normalized form —
but entries of equal normalized length do exist. -/
theorem C2_amended_catalog_invariant :
    List.Pairwise (fun a b => b.norm.length ≤ a.norm.length) ROOM_KEYWORD_INFO ∧
    (∀ n : Nat, ROOM_KEYWORD_INFO.filter (fun i => i.norm.length == n) =
      (ROOM_KEYWORDS.map (fun raw => { raw := raw, norm := normalizeToken raw })).filter
        (fun i => i.norm.length == n)) ∧
    List.Pairwise (fun a b => a.norm ≠ b.norm) ROOM_KEYWORD_INFO := by
  refine ⟨by decide, ?_, by decide⟩
  intro n
  by_cases hn : n ≤ 12
  · interval_cases n <;> decide
  · have hfil : ∀ (l : List RoomKeywordInfo),
        l.all (fun i => decide (i.norm.length ≤ 12)) = true →
        l.filter (fun i => i.norm.length == n) = [] := by
      intro l hl
      induction l with
      | nil => rfl
      | cons a t ih =>
        rw [List.all_cons, Bool.and_eq_true] at hl
        rw [List.filter_cons]
        have hne : (a.norm.length == n) = false := by
          have h12 := of_decide_eq_true hl.1
          cases hb : (a.norm.length == n)
          · rfl
          · have := eq_of_beq hb
            omega
        simp only [hne, Bool.false_eq_true, if_false]
        exact ih hl.2
    rw [hfil _ (by decide), hfil _ (by decide)]

theorem trimBy_idem {p : Char → Bool} (l : List Char) :
    trimBy p (trimBy p l) = trimBy p l :=
  trimBy_eq_self (fun _ hc => head?_trimBy hc) (fun _ hc => getLast?_trimBy hc)

theorem trimBy_ne_nil {p : Char → Bool} {l : List Char} {c : Char}
    (hh : l.head? = some c) (hp : p c = false) : trimBy p l ≠ [] := by
  intro hcon
  unfold trimBy dropTrailing at hcon
  have h1 : l.dropWhile p = l :=
    dropWhile_eq_self_of_head (fun d hd => by rw [hd] at hh; injection hh with h; rw [h]; exact hp)
  rw [h1] at hcon
  have h2 : l.reverse.dropWhile p = [] := by
    cases hd : l.reverse.dropWhile p with
    | nil => rfl
    | cons a t => rw [hd] at hcon; simp at hcon
  rw [List.dropWhile_eq_nil_iff] at h2
  cases l with
  | nil => simp at hh
  | cons a t =>
    have hac : a = c := by injection hh
    have h3 := h2 a (by simp)
    rw [hac] at h3
    rw [h3] at hp
    exact Bool.noConfusion hp

theorem mem_takeWhile_pred {p : Char → Bool} {l : List Char} {a : Char}
    (h : a ∈ l.takeWhile p) : p a = true := by
  induction l with
  | nil => simp [List.takeWhile] at h
  | cons b t ih =>
    rw [List.takeWhile_cons] at h
    by_cases hb : p b
    · rw [if_pos hb] at h
      rcases List.mem_cons.1 h with h1 | h1
      · rw [h1]; exact hb
      · exact ih h1
    · rw [if_neg hb] at h; simp at h

/-- C9: the Title Deriver operates only on the first line of the possibly
multi-line input, trimmed: `deriveToken(t)` equals `deriveToken` applied to
the trimmed first line (the text before the first newline) of the trimmed
input. -/
theorem C9_derive_uses_trimmed_first_line (t : String) :
    deriveRoomTokenFromText t =
      deriveRoomTokenFromText ⟨jsTrim ((jsTrim t.data).takeWhile (fun c => c != '\n'))⟩ := by
  unfold deriveRoomTokenFromText
  dsimp only
  cases hA : jsTrim t.data with
  | nil => simp [jsTrim, trimBy, dropTrailing]
  | cons c rest =>
    have hA2 : trimBy isJsWs t.data = c :: rest := hA
    have hc : isJsWs c = false := head?_trimBy (by rw [hA2]; rfl)
    have hcn : (c != '\n') = true := by
      cases hcc : c == '\n'
      · simp [bne, hcc]
      · have hcc2 := eq_of_beq hcc
        subst hcc2
        exact absurd hc (by decide)
    have htw : ((c :: rest).takeWhile (fun c => c != '\n')).head? = some c := by
      rw [List.takeWhile_cons, if_pos hcn]
      rfl
    have hL : jsTrim ((c :: rest).takeWhile (fun c => c != '\n')) ≠ [] :=
      trimBy_ne_nil htw hc
    have hjj : jsTrim (jsTrim ((c :: rest).takeWhile (fun c => c != '\n'))) =
        jsTrim ((c :: rest).takeWhile (fun c => c != '\n')) := trimBy_idem _
    have hE2 : (jsTrim ((c :: rest).takeWhile (fun c => c != '\n'))).isEmpty = false := by
      cases hd : jsTrim ((c :: rest).takeWhile (fun c => c != '\n')) with
      | nil => exact absurd hd hL
      | cons a u => rfl
    simp only [List.isEmpty_cons, Bool.false_eq_true, if_false, hjj, hE2]
    have hnolf : (jsTrim ((c :: rest).takeWhile (fun c => c != '\n'))).takeWhile
        (fun c => c != '\n') = jsTrim ((c :: rest).takeWhile (fun c => c != '\n')) := by
      rw [List.takeWhile_eq_self_iff]
      intro x hx
      have hx2 : x ∈ (c :: rest).takeWhile (fun c => c != '\n') :=
        mem_trimBy (p := isJsWs) hx
      exact mem_takeWhile_pred (p := fun c => c != '\n') (a := x) hx2
    rw [hnolf, hjj]

theorem findAllF_cons (p : FNode → Bool) (n : FNode) (rest : FForest) :
    findAllF p (.cons n rest) =
      (if p n then [n] else []) ++ findAllF p n.children ++ findAllF p rest := by
  cases n
  rfl

theorem findAllF_ofList_leaves (p : FNode → Bool) (l : List FNode)
    (h : ∀ n ∈ l, n.children = FForest.nil) :
    findAllF p (ofList l) = l.filter p := by
  induction l with
  | nil => rfl
  | cons n t ih =>
    show findAllF p (.cons n (ofList t)) = _
    rw [findAllF_cons, h n (by simp)]
    show (if p n then [n] else []) ++ [] ++ findAllF p (ofList t) = _
    rw [ih (fun m hm => h m (by simp [hm])), List.filter_cons]
    by_cases hp : p n
    · simp [hp]
    · simp [hp]

theorem insertS_head {α : Type} {le : α → α → Bool} {a : α} {t : List α}
    (h : ∀ b ∈ t, le a b = true) : insertS le a t = a :: t := by
  cases t with
  | nil => rfl
  | cons b u => rw [insertS, if_pos (h b (by simp))]

theorem sortS_sorted_id {α : Type} {le : α → α → Bool} {l : List α}
    (h : l.Pairwise (fun a b => le a b = true)) : sortS le l = l := by
  induction l with
  | nil => rfl
  | cons a t ih =>
    rw [List.pairwise_cons] at h
    rw [sortS, ih h.2, insertS_head h.1]

theorem mem_idxFrom {α : Type} {l : List α} {k : Nat} {q : Nat × α}
    (h : q ∈ idxFrom k l) : q.2 ∈ l := by
  induction l generalizing k with
  | nil => simp [idxFrom] at h
  | cons a t ih =>
    rw [idxFrom] at h
    rcases List.mem_cons.1 h with h1 | h1
    · rw [h1]; simp
    · simp [ih h1]

theorem idxFrom_pairwise {α : Type} {R : α → α → Prop} {l : List α}
    (h : l.Pairwise R) (k : Nat) :
    (idxFrom k l).Pairwise (fun p q => R p.2 q.2) := by
  induction l generalizing k with
  | nil => exact List.Pairwise.nil
  | cons a t ih =>
    rw [List.pairwise_cons] at h
    rw [idxFrom, List.pairwise_cons]
    exact ⟨fun q hq => h.1 q.2 (mem_idxFrom hq), ih h.2 (k + 1)⟩

theorem lookup_rank_aux {pat : Nat → String} (l : List FNode) :
    ∀ (k j : Nat), k ≤ j → j < k + l.length →
      lookupName ((idxFrom k (idxFrom k l)).map (fun p => (p.2.1, pat p.1))) j = pat j := by
  induction l with
  | nil => intro k j h1 h2; simp at h2; omega
  | cons a t ih =>
    intro k j h1 h2
    show lookupName (((k, (k, a)) :: idxFrom (k + 1) (idxFrom (k + 1) t)).map
      (fun p => (p.2.1, pat p.1))) j = pat j
    rw [List.map_cons]
    unfold lookupName
    by_cases hkj : k = j
    · subst hkj
      rw [List.find?_cons_of_pos _ (by simp)]
    · rw [List.find?_cons_of_neg _ (by simp; omega)]
      have h3 : k + 1 ≤ j := by omega
      have h4 : j < (k + 1) + t.length := by
        simp [List.length_cons] at h2
        omega
      exact ih (k + 1) j h3 h4

theorem lookup_rank_of_id {pat : Nat → String} {l : List FNode} {j : Nat}
    (hj : j < l.length) :
    lookupName (rankNames pat (idxFrom 0 l)) j = pat j := by
  unfold rankNames
  exact lookup_rank_aux l 0 j (Nat.zero_le _) (by omega)

/-- The node rewrite performed on each image layer: new name, placeholder
fill, everything else untouched. -/
def setImg (nm : String) : FNode → FNode
  | .mk _ t x y _ c ch => .mk nm t x y placeholderFills c ch

theorem setImg_name (nm : String) (n : FNode) : (setImg nm n).name = nm := by
  cases n; rfl

theorem setImg_ntype (nm : String) (n : FNode) : (setImg nm n).ntype = n.ntype := by
  cases n; rfl

theorem setImg_children (nm : String) (n : FNode) : (setImg nm n).children = n.children := by
  cases n; rfl

theorem idxFrom_fst_lt {α : Type} {l : List α} {k : Nat} {q : Nat × α}
    (h : q ∈ idxFrom k l) : q.1 < k + l.length := by
  induction l generalizing k with
  | nil => simp [idxFrom] at h
  | cons a t ih =>
    rw [idxFrom] at h
    rcases List.mem_cons.1 h with h1 | h1
    · rw [h1]; simp
    · have := ih h1
      simp only [List.length_cons]
      omega

theorem idxFrom_map_fst {α β : Type} (g : Nat → β) (l : List α) :
    ∀ k, (idxFrom k l).map (fun p => g p.1) = (List.range' k l.length).map g := by
  induction l with
  | nil => intro k; rfl
  | cons a t ih =>
    intro k
    rw [idxFrom, List.map_cons, ih (k + 1)]
    rfl

theorem applyNamesF_cons_nonimg (f : Nat → String) (n : FNode) (rest : FForest) (k : Nat)
    (hni : isImageLayer n = false) (hch : n.children = FForest.nil) :
    applyNamesF f (.cons n rest) k =
      (.cons n (applyNamesF f rest k).1, (applyNamesF f rest k).2) := by
  cases n with
  | mk nm t x y fl c ch =>
    have hch2 : ch = FForest.nil := hch
    subst hch2
    rw [applyNamesF, if_neg (by rw [hni]; simp)]
    rfl

theorem applyNamesF_ofList_imgleaves (f : Nat → String) (l : List FNode) :
    ∀ k, (∀ n ∈ l, isImageLayer n = true ∧ n.children = FForest.nil) →
    applyNamesF f (ofList l) k =
      (ofList ((idxFrom k l).map (fun p => setImg (f p.1) p.2)), k + l.length) := by
  induction l with
  | nil => intro k _; rfl
  | cons n t ih =>
    intro k h
    rcases h n (by simp) with ⟨himg, hch⟩
    cases n with
    | mk nm ty x y fl c ch =>
      have hch2 : ch = FForest.nil := hch
      subst hch2
      show applyNamesF f (.cons (.mk nm ty x y fl c FForest.nil) (ofList t)) k = _
      rw [applyNamesF, if_pos (by rw [himg])]
      rw [show applyNamesF f FForest.nil (k + 1) = (FForest.nil, k + 1) from rfl]
      dsimp only
      rw [ih (k + 1) (fun m hm => h m (by simp [hm]))]
      rw [idxFrom, List.map_cons]
      show (FForest.cons (.mk (f k) ty x y placeholderFills c FForest.nil) _, _) = _
      refine Prod.ext ?_ ?_
      · rfl
      · show k + 1 + t.length = k + (t.length + 1)
        omega

theorem setChildren_children (n : FNode) (f : FForest) : (setChildren n f).children = f := by
  cases n; rfl

theorem isImageLayer_setChildren (n : FNode) (f : FForest) :
    isImageLayer (setChildren n f) = isImageLayer n := by
  cases n; rfl

theorem text_not_image {n : FNode} (h : n.ntype = NType.text) : isImageLayer n = false := by
  simp [isImageLayer, h]

theorem rect_is_image {n : FNode} (h : n.ntype = NType.rectangle) : isImageLayer n = true := by
  simp [isImageLayer, nodeHasFills, h]

theorem setImg_is_image {nm : String} {n : FNode} (h : n.ntype = NType.rectangle) :
    isImageLayer (setImg nm n) = true :=
  rect_is_image (by rw [setImg_ntype]; exact h)

/-- C7: on an Owners-Suite block, the auto-seeder names the image layers by
sorted position with the fixed 5-slot pattern
`Owners_1, Owners_2, Owners_Bath_1, Owners_Bath_2, Owners_WIC_1` and names
every node at 0-based position `i ≥ 5` as `Owners_<i+1>`; the block counts
as processed with one rename per image node and no issues. -/
theorem C7_owners_suite_pattern (container block tn : FNode) (imgs : List FNode)
    (hcc : container.children = FForest.cons block FForest.nil)
    (hbt : supportsChildren block.ntype = true)
    (hbni : isImageLayer block = false)
    (hbc : block.children = FForest.cons tn (ofList imgs))
    (htn : tn.ntype = NType.text) (htc : tn.children = FForest.nil)
    (hne : jsTrim tn.chars.data ≠ [])
    (howners : isOwnersSuiteTitle ⟨jsTrim tn.chars.data⟩ = true)
    (himg : ∀ n ∈ imgs, n.ntype = NType.rectangle ∧ n.children = FForest.nil)
    (hnonempty : imgs ≠ [])
    (hsorted : imgs.Pairwise (fun a b => a.y < b.y)) :
    (autoSeedRoomNames container).2 = ⟨imgs.length, 1, []⟩ ∧
    (findAllF isImageLayer (autoSeedRoomNames container).1.children).map FNode.name =
      (List.range imgs.length).map (fun i =>
        if i < 5 then
          ["Owners_1", "Owners_2", "Owners_Bath_1", "Owners_Bath_2", "Owners_WIC_1"].getD i ""
        else "Owners_" ++ Nat.repr (i + 1)) := by
  have htni : isImageLayer tn = false := text_not_image htn
  have hfo : findOneF (fun n => n.ntype == NType.text) block.children = some tn := by
    rw [hbc]
    unfold findOneF
    rw [findAllF_cons, if_pos (by rw [htn]; rfl)]
    simp
  have hTitleNe : ¬ ((⟨jsTrim tn.chars.data⟩ : String) = "") := by
    intro hcon
    exact hne (congrArg String.data hcon)
  have himgeq : findAllF isImageLayer block.children = imgs := by
    rw [hbc, findAllF_cons, htc, if_neg (by rw [htni]; simp)]
    rw [findAllF_ofList_leaves _ _ (fun n hn => (himg n hn).2)]
    rw [List.filter_eq_self.mpr (fun n hn => rect_is_image (himg n hn).1)]
    rfl
  have hie : imgs.isEmpty = false := by
    cases imgs with
    | nil => exact absurd rfl hnonempty
    | cons a t => rfl
  have hsid : sortS (fun p q => imgCmpLe p.2 q.2) (idxFrom 0 imgs) = idxFrom 0 imgs := by
    have himp : ∀ {a b : FNode}, a.y < b.y → imgCmpLe a b = true := by
      intro a b h
      simp [imgCmpLe, h]
    exact sortS_sorted_id (idxFrom_pairwise (hsorted.imp himp) 0)
  have happ : applyNamesF (lookupName (rankNames ownersName (idxFrom 0 imgs)))
      block.children 0 =
      (FForest.cons tn (ofList ((idxFrom 0 imgs).map
        (fun p => setImg (lookupName (rankNames ownersName (idxFrom 0 imgs)) p.1) p.2))),
        imgs.length) := by
    rw [hbc, applyNamesF_cons_nonimg _ _ _ _ htni htc]
    rw [applyNamesF_ofList_imgleaves _ _ 0
      (fun n hn => ⟨rect_is_image (himg n hn).1, (himg n hn).2⟩)]
    simp
  have hpb : processBlock block =
      ⟨setChildren block (FForest.cons tn (ofList ((idxFrom 0 imgs).map
        (fun p => setImg (lookupName (rankNames ownersName (idxFrom 0 imgs)) p.1) p.2)))),
        imgs.length, 1, []⟩ := by
    unfold processBlock
    rw [hfo]
    dsimp only
    rw [if_neg hTitleNe, himgeq]
    rw [if_neg (show ¬(imgs.isEmpty = true) by simp [hie])]
    rw [hsid, if_pos howners, happ]
  have htl : toList container.children = [block] := by rw [hcc]; rfl
  have hfil : (toList container.children).filter (fun n => supportsChildren n.ntype)
      = [block] := by
    rw [htl]
    simp [hbt]
  have hpc : processChildren (toList container.children) =
      ⟨[(processBlock block).newBlock], (processBlock block).renamed,
        (processBlock block).processed, (processBlock block).issues⟩ := by
    rw [htl]
    simp [processChildren, hbt]
  have hseed : autoSeedRoomNames container =
      (setChildren container (ofList [(processBlock block).newBlock]),
        ⟨(processBlock block).renamed, (processBlock block).processed,
          (processBlock block).issues⟩) := by
    unfold autoSeedRoomNames
    rw [hfil]
    dsimp only
    rw [if_neg (show ¬(([block] : List FNode).isEmpty = true) by simp)]
    rw [hpc]
  constructor
  · rw [hseed, hpb]
  · rw [hseed, hpb]
    dsimp only
    rw [setChildren_children]
    show (findAllF isImageLayer (FForest.cons (setChildren block _) FForest.nil)).map
      FNode.name = _
    rw [findAllF_cons]
    rw [if_neg (by rw [isImageLayer_setChildren, hbni]; simp)]
    rw [setChildren_children]
    rw [show findAllF isImageLayer FForest.nil = [] from rfl]
    rw [findAllF_cons, htc, if_neg (by rw [htni]; simp)]
    rw [show findAllF isImageLayer FForest.nil = [] from rfl]
    rw [findAllF_ofList_leaves _ _ (fun n hn => by
      rcases List.mem_map.1 hn with ⟨p, hp, hpn⟩
      rw [← hpn, setImg_children]
      exact (himg p.2 (mem_idxFrom hp)).2)]
    rw [List.filter_eq_self.mpr (fun n hn => by
      rcases List.mem_map.1 hn with ⟨p, hp, hpn⟩
      rw [← hpn]
      exact setImg_is_image (himg p.2 (mem_idxFrom hp)).1)]
    simp only [List.nil_append, List.append_nil]
    rw [List.map_map]
    have hstep : ((idxFrom 0 imgs).map
        (fun p => FNode.name (setImg (lookupName (rankNames ownersName (idxFrom 0 imgs)) p.1) p.2))) =
        (idxFrom 0 imgs).map (fun p => ownersName p.1) := by
      refine List.map_congr_left ?_
      intro p hp
      rw [setImg_name]
      exact lookup_rank_of_id (by simpa using idxFrom_fst_lt hp)
    show ((idxFrom 0 imgs).map
      (fun p => FNode.name (setImg (lookupName (rankNames ownersName (idxFrom 0 imgs)) p.1) p.2))) = _
    rw [hstep, idxFrom_map_fst ownersName imgs 0, ← List.range_eq_range']
    refine List.map_congr_left ?_
    intro i _
    rfl

theorem toList_ofList (l : List FNode) : toList (ofList l) = l := by
  induction l with
  | nil => rfl
  | cons a t ih => show a :: toList (ofList t) = a :: t; rw [ih]

theorem processChildren_nil : processChildren [] = ⟨[], 0, 0, []⟩ := rfl

theorem processChildren_cons (n : FNode) (rest : List FNode) :
    processChildren (n :: rest) =
      (if supportsChildren n.ntype then
        ⟨(processBlock n).newBlock :: (processChildren rest).newChildren,
          (processBlock n).renamed + (processChildren rest).renamed,
          (processBlock n).processed + (processChildren rest).processed,
          (processBlock n).issues ++ (processChildren rest).issues⟩
      else
        ⟨n :: (processChildren rest).newChildren, (processChildren rest).renamed,
          (processChildren rest).processed, (processChildren rest).issues⟩) := rfl

theorem processChildren_append (l₁ l₂ : List FNode) :
    processChildren (l₁ ++ l₂) =
      ⟨(processChildren l₁).newChildren ++ (processChildren l₂).newChildren,
        (processChildren l₁).renamed + (processChildren l₂).renamed,
        (processChildren l₁).processed + (processChildren l₂).processed,
        (processChildren l₁).issues ++ (processChildren l₂).issues⟩ := by
  induction l₁ with
  | nil => simp [processChildren_nil]
  | cons n t ih =>
    rw [List.cons_append, processChildren_cons, processChildren_cons, ih]
    by_cases hs : supportsChildren n.ntype = true
    · simp [hs, Nat.add_assoc]
    · simp [hs]

/-- C8: in the default branch, a block whose (nonempty, non-Owners) title
yields no derivable token contributes exactly one issue and zero renamed
layers and is returned unchanged (none of its nodes' names or fills change),
and the contributions of all other children of the container are exactly
what they would be without this block. -/
theorem C8_underivable_title_skips_block (block tn : FNode)
    (hbt : supportsChildren block.ntype = true)
    (hfo : findOneF (fun n => n.ntype == NType.text) block.children = some tn)
    (hne : jsTrim tn.chars.data ≠ [])
    (himgs : findAllF isImageLayer block.children ≠ [])
    (hnoowner : isOwnersSuiteTitle ⟨jsTrim tn.chars.data⟩ = false)
    (hnotok : deriveRoomTokenFromText ⟨jsTrim tn.chars.data⟩ = none) :
    processBlock block =
      ⟨block, 0, 0, ["Block \"" ++ block.name ++ "\": could not derive room token from \""
        ++ (⟨jsTrim tn.chars.data⟩ : String) ++ "\"."]⟩ ∧
    (∀ pre post : List FNode,
      processChildren (pre ++ block :: post) =
        ⟨(processChildren pre).newChildren ++ block :: (processChildren post).newChildren,
          (processChildren pre).renamed + (processChildren post).renamed,
          (processChildren pre).processed + (processChildren post).processed,
          (processChildren pre).issues ++ ("Block \"" ++ block.name ++
            "\": could not derive room token from \"" ++ (⟨jsTrim tn.chars.data⟩ : String)
            ++ "\".") :: (processChildren post).issues⟩) ∧
    (∀ (container : FNode) (pre post : List FNode),
      container.children = ofList (pre ++ block :: post) →
      (autoSeedRoomNames container).2.renamedLayers =
        (processChildren pre).renamed + (processChildren post).renamed ∧
      (autoSeedRoomNames container).2.processedBlocks =
        (processChildren pre).processed + (processChildren post).processed ∧
      (autoSeedRoomNames container).2.issues =
        (processChildren pre).issues ++ ("Block \"" ++ block.name ++
          "\": could not derive room token from \"" ++ (⟨jsTrim tn.chars.data⟩ : String)
          ++ "\".") :: (processChildren post).issues) := by
  have hTitleNe : ¬ ((⟨jsTrim tn.chars.data⟩ : String) = "") := by
    intro hcon
    exact hne (congrArg String.data hcon)
  have hie : (findAllF isImageLayer block.children).isEmpty = false := by
    cases hfa : findAllF isImageLayer block.children with
    | nil => exact absurd hfa himgs
    | cons a t => rfl
  have hpb : processBlock block =
      ⟨block, 0, 0, ["Block \"" ++ block.name ++ "\": could not derive room token from \""
        ++ (⟨jsTrim tn.chars.data⟩ : String) ++ "\"."]⟩ := by
    unfold processBlock
    rw [hfo]
    dsimp only
    rw [if_neg hTitleNe]
    rw [if_neg (show ¬((findAllF isImageLayer block.children).isEmpty = true) by simp [hie])]
    rw [if_neg (show ¬(isOwnersSuiteTitle ⟨jsTrim tn.chars.data⟩ = true) by simp [hnoowner])]
    rw [hnotok]
  have hmid : ∀ post : List FNode, processChildren (block :: post) =
      ⟨block :: (processChildren post).newChildren,
        (processChildren post).renamed, (processChildren post).processed,
        ("Block \"" ++ block.name ++ "\": could not derive room token from \""
          ++ (⟨jsTrim tn.chars.data⟩ : String) ++ "\".") :: (processChildren post).issues⟩ := by
    intro post
    rw [processChildren_cons, if_pos hbt, hpb]
    simp
  have hadd : ∀ pre post : List FNode,
      processChildren (pre ++ block :: post) =
        ⟨(processChildren pre).newChildren ++ block :: (processChildren post).newChildren,
          (processChildren pre).renamed + (processChildren post).renamed,
          (processChildren pre).processed + (processChildren post).processed,
          (processChildren pre).issues ++ ("Block \"" ++ block.name ++
            "\": could not derive room token from \"" ++ (⟨jsTrim tn.chars.data⟩ : String)
            ++ "\".") :: (processChildren post).issues⟩ := by
    intro pre post
    rw [processChildren_append, hmid post]
  refine ⟨hpb, hadd, ?_⟩
  intro container pre post hcc
  have htl : toList container.children = pre ++ block :: post := by
    rw [hcc, toList_ofList]
  have hbmem : block ∈ (toList container.children).filter (fun n => supportsChildren n.ntype) := by
    rw [htl]
    exact List.mem_filter.2 ⟨by simp, hbt⟩
  have hfe : ((toList container.children).filter
      (fun n => supportsChildren n.ntype)).isEmpty = false := by
    cases hpf : (toList container.children).filter (fun n => supportsChildren n.ntype) with
    | nil => rw [hpf] at hbmem; simp at hbmem
    | cons a t => rfl
  have hseed : (autoSeedRoomNames container).2 =
      ⟨(processChildren (toList container.children)).renamed,
        (processChildren (toList container.children)).processed,
        (processChildren (toList container.children)).issues⟩ := by
    unfold autoSeedRoomNames
    dsimp only
    rw [if_neg (show ¬(((toList container.children).filter
      (fun n => supportsChildren n.ntype)).isEmpty = true) by simp [hfe])]
  rw [hseed, htl, hadd pre post]
  exact ⟨rfl, rfl, rfl⟩

theorem processBlock_spec (b : FNode) :
    ((processBlock b).processed = 0 ∧ (processBlock b).renamed = 0) ∨
    ((processBlock b).processed = 1 ∧
      (processBlock b).renamed = (findAllF isImageLayer b.children).length ∧
      1 ≤ (findAllF isImageLayer b.children).length) := by
  unfold processBlock
  cases hfo : findOneF (fun n => n.ntype == NType.text) b.children with
  | none => exact Or.inl ⟨rfl, rfl⟩
  | some tn =>
    dsimp only
    by_cases h1 : (⟨jsTrim tn.chars.data⟩ : String) = ""
    · rw [if_pos h1]
      exact Or.inl ⟨rfl, rfl⟩
    · rw [if_neg h1]
      by_cases h2 : (findAllF isImageLayer b.children).isEmpty = true
      · rw [if_pos h2]
        exact Or.inl ⟨rfl, rfl⟩
      · rw [if_neg h2]
        have hlen : 1 ≤ (findAllF isImageLayer b.children).length := by
          cases hfa : findAllF isImageLayer b.children with
          | nil => rw [hfa] at h2; exact absurd rfl h2
          | cons a t => simp
        by_cases h3 : isOwnersSuiteTitle ⟨jsTrim tn.chars.data⟩ = true
        · rw [if_pos h3]
          exact Or.inr ⟨rfl, rfl, hlen⟩
        · rw [if_neg h3]
          cases hd : deriveRoomTokenFromText ⟨jsTrim tn.chars.data⟩ with
          | none => exact Or.inl ⟨rfl, rfl⟩
          | some tok => exact Or.inr ⟨rfl, rfl, hlen⟩

theorem processChildren_spec (l : List FNode) :
    (processChildren l).processed ≤ (processChildren l).renamed ∧
    ((processChildren l).processed = 0 → (processChildren l).renamed = 0) ∧
    (processChildren l).renamed =
      ((l.filter (fun n => supportsChildren n.ntype)).filter
        (fun n => (processBlock n).processed == 1)).foldr
        (fun b acc => (findAllF isImageLayer b.children).length + acc) 0 := by
  induction l with
  | nil => exact ⟨Nat.le_refl _, fun _ => rfl, rfl⟩
  | cons n t ih =>
    rcases ih with ⟨ih1, ih2, ih3⟩
    rw [processChildren_cons]
    by_cases hs : supportsChildren n.ntype = true
    · rw [if_pos hs]
      dsimp only
      rw [List.filter_cons, if_pos hs]
      rcases processBlock_spec n with ⟨hp, hr⟩ | ⟨hp, hr, hlen⟩
      · rw [hp, hr]
        rw [List.filter_cons, if_neg (by rw [hp]; simp)]
        refine ⟨by omega, ?_, ?_⟩
        · intro h
          have h2 := ih2 (by omega)
          omega
        · simpa using ih3
      · rw [hp, hr]
        rw [List.filter_cons, if_pos (by rw [hp]; simp)]
        refine ⟨by omega, by omega, ?_⟩
        rw [List.foldr_cons, ← ih3]
    · rw [if_neg hs]
      dsimp only
      rw [List.filter_cons, if_neg hs]
      exact ⟨ih1, ih2, ih3⟩

/-- C10: for every container, `renamedLayers ≥ processedBlocks`; every block
counted in `processedBlocks` renamed at least one image node (blocks with no
image nodes are skipped before any renaming branch), `renamedLayers` is the
total number of image-bearing nodes of the processed blocks, and in
particular `processedBlocks = 0` implies `renamedLayers = 0`. -/
theorem C10_renamed_dominates_processed (container : FNode) :
    (autoSeedRoomNames container).2.processedBlocks ≤
      (autoSeedRoomNames container).2.renamedLayers ∧
    ((autoSeedRoomNames container).2.processedBlocks = 0 →
      (autoSeedRoomNames container).2.renamedLayers = 0) ∧
    (autoSeedRoomNames container).2.renamedLayers =
      (((toList container.children).filter (fun n => supportsChildren n.ntype)).filter
        (fun n => (processBlock n).processed == 1)).foldr
        (fun b acc => (findAllF isImageLayer b.children).length + acc) 0 ∧
    (∀ b ∈ ((toList container.children).filter (fun n => supportsChildren n.ntype)).filter
        (fun n => (processBlock n).processed == 1),
      1 ≤ (findAllF isImageLayer b.children).length ∧
      (processBlock b).renamed = (findAllF isImageLayer b.children).length) := by
  have hblk : ∀ b, (processBlock b).processed == 1 →
      1 ≤ (findAllF isImageLayer b.children).length ∧
      (processBlock b).renamed = (findAllF isImageLayer b.children).length := by
    intro b hb
    rcases processBlock_spec b with ⟨hp, _⟩ | ⟨_, hr, hlen⟩
    · rw [hp] at hb; simp at hb
    · exact ⟨hlen, hr⟩
  unfold autoSeedRoomNames
  dsimp only
  by_cases hbe : ((toList container.children).filter
      (fun n => supportsChildren n.ntype)).isEmpty = true
  · rw [if_pos hbe]
    have hnil : (toList container.children).filter (fun n => supportsChildren n.ntype) = [] := by
      cases hv : (toList container.children).filter (fun n => supportsChildren n.ntype) with
      | nil => rfl
      | cons a u => rw [hv] at hbe; simp at hbe
    rw [hnil]
    exact ⟨Nat.le_refl _, fun _ => rfl, rfl, by simp⟩
  · rw [if_neg hbe]
    rcases processChildren_spec (toList container.children) with ⟨h1, h2, h3⟩
    exact ⟨h1, h2, h3, fun b hb => hblk b (List.mem_filter.1 hb).2⟩

theorem C1_resolver_witness :
    ∃ idx : List Char, parseFilenameToTargetLayer "CoveredPatio_2.png" =
      some (({ raw := "CoveredPatio", norm := "coveredpatio" } : RoomKeywordInfo).raw
        ++ "_" ++ ⟨idx⟩) :=
  C1_resolver_first_token_match.2.1 "CoveredPatio_2.png" [] (ROOM_KEYWORD_INFO.drop 1)
    { raw := "CoveredPatio", norm := "coveredpatio" } (by decide) (by simp)
    ⟨0, Or.inl rfl, by decide, Or.inr (by decide)⟩

theorem C3_witness :
    ofMatch (['3'] ++ ['o', 'f', '4']) = some ['3'] ∧
    ofMatch ('_' :: (['3'] ++ ['o', 'f', '4'])) = some ['3'] ∧
    extractIndex (['3'] ++ ['o', 'f', '4']) = ['3'] ∧
    extractIndex ('_' :: (['3'] ++ ['o', 'f', '4'])) = ['3'] :=
  C3_n_of_m_keeps_first_digits.1 ['3'] ['o', 'f', '4'] ['4'] (by decide) (by decide)
    (Or.inl rfl) ⟨'4', rfl, by decide⟩

theorem C4_witness :
    ofMatch ('f' :: ['2']) = none ∧ underscoreMatch ('f' :: ['2']) = none ∧
    extractIndex ('f' :: ['2']) = ['1'] ∧
    ofMatch ('_' :: 'f' :: ['2']) = none ∧ underscoreMatch ('_' :: 'f' :: ['2']) = none ∧
    extractIndex ('_' :: 'f' :: ['2']) = ['1'] :=
  C4_nonadjacent_digit_defaults_to_one.1 'f' ['2'] (by decide) (by decide)

theorem C5_amended_witness :
    ∃ info ∈ ROOM_KEYWORD_INFO, ∃ idx : List Char,
      ("Kitchen_2" : String) = info.raw ++ "_" ++ ⟨idx⟩ ∧ idx ≠ [] ∧
      idx.all Char.isDigit = true :=
  C5_amended_match_form.1 "Kitchen_2.png" "Kitchen_2" (by decide)

/-- A concrete leaf image rectangle used by the auto-seeder examples. -/
def wImg (i : Nat) : FNode :=
  FNode.mk ("img" ++ Nat.repr i) NType.rectangle 0 (Int.ofNat i) [] "" FForest.nil

/-- A concrete Owners-Suite title node. -/
def wTitle : FNode := FNode.mk "Title" NType.text 0 (-1) [] "Owners Suite" FForest.nil

/-- A concrete Owners-Suite block with six image nodes in sorted order. -/
def wBlockO : FNode :=
  FNode.mk "OwnersBlock" NType.frame 0 0 [] ""
    (FForest.cons wTitle (ofList [wImg 0, wImg 1, wImg 2, wImg 3, wImg 4, wImg 5]))

/-- A concrete container holding the Owners-Suite block. -/
def wContainerO : FNode :=
  FNode.mk "Container" NType.frame 0 0 [] "" (FForest.cons wBlockO FForest.nil)

theorem C7_witness :
    (autoSeedRoomNames wContainerO).2 = ⟨6, 1, []⟩ ∧
    (findAllF isImageLayer (autoSeedRoomNames wContainerO).1.children).map FNode.name =
      (List.range 6).map (fun i =>
        if i < 5 then
          ["Owners_1", "Owners_2", "Owners_Bath_1", "Owners_Bath_2", "Owners_WIC_1"].getD i ""
        else "Owners_" ++ Nat.repr (i + 1)) :=
  C7_owners_suite_pattern wContainerO wBlockO wTitle
    [wImg 0, wImg 1, wImg 2, wImg 3, wImg 4, wImg 5]
    rfl rfl rfl rfl rfl rfl (by decide) (by decide)
    (by
      intro n hn
      simp only [List.mem_cons, List.not_mem_nil, or_false] at hn
      rcases hn with h | h | h | h | h | h <;> subst h <;> exact ⟨rfl, rfl⟩)
    (by simp)
    (by decide)

/-- A concrete title node whose text yields no derivable token. -/
def wTitleBad : FNode := FNode.mk "T" NType.text 0 (-1) [] "###" FForest.nil

/-- A concrete block with an underivable title and one image node. -/
def wBlockBad : FNode :=
  FNode.mk "BadBlock" NType.frame 0 0 [] "" (FForest.cons wTitleBad (ofList [wImg 0]))

theorem C8_witness :
    processBlock wBlockBad =
      ⟨wBlockBad, 0, 0,
        ["Block \"BadBlock\": could not derive room token from \"###\"."]⟩ ∧
    processChildren [wBlockBad] =
      ⟨[wBlockBad], 0, 0,
        ["Block \"BadBlock\": could not derive room token from \"###\"."]⟩ := by
  have h := C8_underivable_title_skips_block wBlockBad wTitleBad rfl rfl (by decide)
    (by intro hcon; exact List.noConfusion hcon) (by decide) (by decide)
  exact ⟨h.1, h.2.1 [] []⟩

theorem C10_witness :
    (autoSeedRoomNames wContainerO).2.processedBlocks ≤
      (autoSeedRoomNames wContainerO).2.renamedLayers ∧
    ((autoSeedRoomNames wContainerO).2.processedBlocks = 0 →
      (autoSeedRoomNames wContainerO).2.renamedLayers = 0) ∧
    (autoSeedRoomNames wContainerO).2.renamedLayers =
      (((toList wContainerO.children).filter (fun n => supportsChildren n.ntype)).filter
        (fun n => (processBlock n).processed == 1)).foldr
        (fun b acc => (findAllF isImageLayer b.children).length + acc) 0 ∧
    (∀ b ∈ ((toList wContainerO.children).filter (fun n => supportsChildren n.ntype)).filter
        (fun n => (processBlock n).processed == 1),
      1 ≤ (findAllF isImageLayer b.children).length ∧
      (processBlock b).renamed = (findAllF isImageLayer b.children).length) :=
  C10_renamed_dominates_processed wContainerO
